import Mathlib

/-!
Verification of the ingredient-parser pipeline (delite3/ingredient_parser).

The development shallowly embeds the two algorithmic stages of the repository:

* segmentation: `parse_ingredients_from_ocr` (ingredients_parser_0.312/test3.py,
  lines 194-303; the identical 0.21 copy lives in image2text.py lines 9-194).
  Strings are modelled as `List Char`; each `re.sub`/`re.split` call of the
  source is embedded as a structurally recursive scanner that reproduces the
  leftmost, non-overlapping semantics of the Python `re` module on the ASCII
  inputs the pipeline handles.
* reconciliation: `smart_analyze` / `smart_analyze_list`
  (ingredients_parser_0.312/test3.py lines 306-433, and the identical
  IngredientAnalyzer methods of Analyser.py lines 378-549), together with the
  EWG lookup logic `find_matches` / `get_ingredient_data`
  (Analyser.py lines 87-321).  The network collaborator is abstracted as the
  per-query list of result products; everything downstream of that list is
  embedded from the source.

All definitions are computable and structurally recursive, so concrete runs
evaluate by `decide`.
-/

/-! ## Character classes (ASCII fragments of the Python `re` classes) -/

/-- Python `\s` restricted to ASCII, which is all the pipeline's data uses. -/
def isSpaceChar (c : Char) : Bool :=
  c = ' ' || c = '\t' || c = '\n' || c = '\r' || c = '\x0b' || c = '\x0c'

/-- Python `[\n\r]`. -/
def isNLChar (c : Char) : Bool := c = '\n' || c = '\r'

/-- Python `[0-9]`. -/
def isDigitChar (c : Char) : Bool := '0' ≤ c && c ≤ '9'

/-- Python `[a-zA-Z]`. -/
def isAlphaChar (c : Char) : Bool := ('a' ≤ c && c ≤ 'z') || ('A' ≤ c && c ≤ 'Z')

/-- Python `[a-zA-Z0-9]`. -/
def isAlnumChar (c : Char) : Bool := isAlphaChar c || isDigitChar c

/-- Python `\w` restricted to ASCII. -/
def isWordChar (c : Char) : Bool := isAlphaChar c || isDigitChar c || c = '_'

/-- Python `[a-z]`. -/
def isLowerChar (c : Char) : Bool := 'a' ≤ c && c ≤ 'z'

/-- Python `[A-Z]`. -/
def isUpperChar (c : Char) : Bool := 'A' ≤ c && c ≤ 'Z'

/-- ASCII lower-casing, the fragment of Python `str.lower()` the pipeline's
case-insensitive comparisons exercise. -/
def lowChar (c : Char) : Char :=
  if 'A' ≤ c && c ≤ 'Z' then Char.ofNat (c.toNat + 32) else c

/-- Lower-case a whole string (Python `s.lower()`). -/
def lowerStr (s : List Char) : List Char := s.map lowChar

/-! ## TextNormalizer (test3.py lines 214-220)

Each of the seven `re.sub` calls is embedded as its own scanner.  They are
written as single structurally-recursive functions over the character list,
with an explicit state argument where the regex needs lookbehind buffering. -/

/-- State of the scanner for rule 1, `(\w+)\-\s*[\n\r]+\s*(\w+) -> \1\2`
(test3.py line 214): either scanning and buffering a word run (reversed), or
having seen `run ++ '-'` and buffering the following whitespace (reversed). -/
inductive JhnState : Type
  | scan (pend : List Char)
  | hy (pend ws : List Char)
  | run2
deriving Repr, DecidableEq

/-- Scanner for rule 1 (join a hyphen+newline line wrap).  Faithful to
`re.sub`'s leftmost non-overlapping semantics: a successful match deletes the
hyphen and the whitespace run (which must contain a newline), and scanning
resumes after the second word run. -/
def jhnStep : JhnState → List Char → List Char
  | .scan pend, [] => pend.reverse
  | .scan pend, c :: t =>
    if isWordChar c then jhnStep (.scan (c :: pend)) t
    else if c = '-' && pend ≠ [] then jhnStep (.hy pend []) t
    else pend.reverse ++ c :: jhnStep (.scan []) t
  | .hy pend ws, [] => pend.reverse ++ '-' :: ws.reverse
  | .hy pend ws, c :: t =>
    if isSpaceChar c then jhnStep (.hy pend (c :: ws)) t
    else if isWordChar c && ws.any isNLChar then
      pend.reverse ++ c :: jhnStep .run2 t
    else if isWordChar c then
      pend.reverse ++ '-' :: ws.reverse ++ jhnStep (.scan [c]) t
    else
      pend.reverse ++ '-' :: ws.reverse ++ c :: jhnStep (.scan []) t
  | .run2, [] => []
  | .run2, c :: t =>
    if isWordChar c then c :: jhnStep .run2 t
    else c :: jhnStep (.scan []) t

/-- Rule 1 of the normalizer: `re.sub(r"(\w+)\-\s*[\n\r]+\s*(\w+)", r"\1\2", s)`. -/
def joinHyphenNL (s : List Char) : List Char := jhnStep (.scan []) s

/-- State of the scanner for rule 2, `(\w+)\s+\-\s+(\w+) -> \1-\2`
(test3.py line 215). -/
inductive JshState : Type
  | scan (pend : List Char)
  | ws1 (pend ws : List Char)
  | dash (pend ws : List Char)
  | ws2 (pend ws1 ws2 : List Char)
  | run2
deriving Repr, DecidableEq

/-- Scanner for rule 2 (tighten a spaced hyphen between two word runs).
On a match the two whitespace runs are deleted and the hyphen kept; on a
failure the scan resumes at the first position that could still start a
match, exactly as `re.sub` does. -/
def jshStep : JshState → List Char → List Char
  | .scan pend, [] => pend.reverse
  | .scan pend, c :: t =>
    if isWordChar c then jshStep (.scan (c :: pend)) t
    else if isSpaceChar c && pend ≠ [] then jshStep (.ws1 pend [c]) t
    else pend.reverse ++ c :: jshStep (.scan []) t
  | .ws1 pend ws, [] => pend.reverse ++ ws.reverse
  | .ws1 pend ws, c :: t =>
    if isSpaceChar c then jshStep (.ws1 pend (c :: ws)) t
    else if c = '-' then jshStep (.dash pend ws) t
    else if isWordChar c then pend.reverse ++ ws.reverse ++ jshStep (.scan [c]) t
    else pend.reverse ++ ws.reverse ++ c :: jshStep (.scan []) t
  | .dash pend ws, [] => pend.reverse ++ ws.reverse ++ ['-']
  | .dash pend ws, c :: t =>
    if isSpaceChar c then jshStep (.ws2 pend ws [c]) t
    else if isWordChar c then pend.reverse ++ ws.reverse ++ '-' :: jshStep (.scan [c]) t
    else pend.reverse ++ ws.reverse ++ '-' :: c :: jshStep (.scan []) t
  | .ws2 pend ws1 ws2, [] => pend.reverse ++ ws1.reverse ++ '-' :: ws2.reverse
  | .ws2 pend ws1 ws2, c :: t =>
    if isSpaceChar c then jshStep (.ws2 pend ws1 (c :: ws2)) t
    else if isWordChar c then pend.reverse ++ '-' :: c :: jshStep .run2 t
    else pend.reverse ++ ws1.reverse ++ '-' :: ws2.reverse ++ c :: jshStep (.scan []) t
  | .run2, [] => []
  | .run2, c :: t =>
    if isWordChar c then c :: jshStep .run2 t
    else c :: jshStep (.scan []) t

/-- Rule 2 of the normalizer: `re.sub(r"(\w+)\s+\-\s+(\w+)", r"\1-\2", s)`. -/
def joinSpacedHyphen (s : List Char) : List Char := jshStep (.scan []) s

/-- Rule 3, `re.sub(r"[\n\r]+", " ", s)`: every maximal newline run becomes a
single space.  The `Bool` flag records being inside a run already replaced. -/
def cnAux : Bool → List Char → List Char
  | _, [] => []
  | inRun, c :: t =>
    if isNLChar c then
      if inRun then cnAux true t else ' ' :: cnAux true t
    else c :: cnAux false t

/-- Rule 3 of the normalizer. -/
def collapseNL (s : List Char) : List Char := cnAux false s

/-- Rule 4, `re.sub(r"\s+", " ", s)`: every maximal whitespace run becomes a
single space. -/
def csAux : Bool → List Char → List Char
  | _, [] => []
  | inRun, c :: t =>
    if isSpaceChar c then
      if inRun then csAux true t else ' ' :: csAux true t
    else c :: csAux false t

/-- Rule 4 of the normalizer. -/
def collapseWs (s : List Char) : List Char := csAux false s

/-- The character map of rule 5, `re.sub(r"[;:]", ",", s)`: each single `;` or
`:` becomes its own `,`; every other character (`|` included) is unchanged. -/
def sepChar (c : Char) : Char := if c = ';' || c = ':' then ',' else c

/-- Rule 5 of the normalizer. -/
def sepToComma (s : List Char) : List Char := s.map sepChar

/-- Rule 6, `re.sub(r"\(\s+", "(", s)`: drop whitespace just after `(`.  The
flag records that the previous emitted character was `(` and whitespace is
being skipped. -/
def opfAux : Bool → List Char → List Char
  | _, [] => []
  | skip, c :: t =>
    if skip && isSpaceChar c then opfAux true t
    else if c = '(' then '(' :: opfAux true t
    else c :: opfAux false t

/-- Rule 6 of the normalizer. -/
def openParenFix (s : List Char) : List Char := opfAux false s

/-- Rule 7, `re.sub(r"\s+\)", ")", s)`: drop whitespace just before `)`.  The
accumulator buffers the pending whitespace run (reversed). -/
def cpfAux (ws : List Char) : List Char → List Char
  | [] => ws.reverse
  | c :: t =>
    if isSpaceChar c then cpfAux (c :: ws) t
    else if c = ')' && ws ≠ [] then ')' :: cpfAux [] t
    else ws.reverse ++ c :: cpfAux [] t

/-- Rule 7 of the normalizer. -/
def closeParenFix (s : List Char) : List Char := cpfAux [] s

/-- The TextNormalizer: the seven `re.sub` calls of test3.py lines 214-220
(identically image2text.py lines 46-60), in source order. -/
def normalizeText (s : List Char) : List Char :=
  closeParenFix (openParenFix (sepToComma (collapseWs (collapseNL
    (joinSpacedHyphen (joinHyphenNL s))))))

/-! ## TokenSegmenter and TokenCleaner (test3.py lines 222-303) -/

/-- `ingredients_text.split(",")` (test3.py line 222). -/
def splitOnComma : List Char → List (List Char)
  | [] => [[]]
  | c :: t =>
    if c = ',' then [] :: splitOnComma t
    else
      match splitOnComma t with
      | h :: r => (c :: h) :: r
      | [] => [[c]]

/-- Python `str.strip()` (ASCII whitespace). -/
def stripWs (s : List Char) : List Char :=
  ((s.dropWhile isSpaceChar).reverse.dropWhile isSpaceChar).reverse

/-- Case-insensitive protection of a three-character abbreviation `[a,b,'.']`
(`a`, `b` lowercase): each occurrence keeps its own characters but its period
becomes `@`.  Embeds one `pattern.sub(lambda m: m.group().replace(".", "@"))`
call of test3.py lines 232-234, with `re`'s leftmost non-overlapping scan. -/
def prot3 (a b : Char) : List Char → List Char
  | [] => []
  | [x] => [x]
  | [x, y] => [x, y]
  | x :: y :: z :: t =>
    if lowChar x = a && lowChar y = b && z = '.' then x :: y :: '@' :: prot3 a b t
    else x :: prot3 a b (y :: z :: t)

/-- Like `prot3` for a four-character abbreviation `[a,b,c,'.']`. -/
def prot4 (a b c : Char) : List Char → List Char
  | [] => []
  | [x] => [x]
  | [x, y] => [x, y]
  | [x, y, z] => [x, y, z]
  | x :: y :: z :: u :: t =>
    if lowChar x = a && lowChar y = b && lowChar z = c && u = '.' then
      x :: y :: z :: '@' :: prot4 a b c t
    else x :: prot4 a b c (y :: z :: u :: t)

/-- Like `prot3` for the six-character abbreviation `subsp.`. -/
def prot6 (a b c d e : Char) : List Char → List Char
  | [] => []
  | [x] => [x]
  | [x, y] => [x, y]
  | [x, y, z] => [x, y, z]
  | [x, y, z, u] => [x, y, z, u]
  | [x, y, z, u, v] => [x, y, z, u, v]
  | x :: y :: z :: u :: v :: w :: t =>
    if lowChar x = a && lowChar y = b && lowChar z = c && lowChar u = d
        && lowChar v = e && w = '.' then
      x :: y :: z :: u :: v :: '@' :: prot6 a b c d e t
    else x :: prot6 a b c d e (y :: z :: u :: v :: w :: t)

/-- Abbreviation protection (test3.py lines 229-234): the nine patterns
`vit. var. spp. sp. subsp. vol. no. dr. st.` applied in list order. -/
def protectAbbrev (s : List Char) : List Char :=
  prot3 's' 't' (prot3 'd' 'r' (prot3 'n' 'o' (prot4 'v' 'o' 'l'
    (prot6 's' 'u' 'b' 's' 'p' (prot3 's' 'p' (prot4 's' 'p' 'p'
      (prot4 'v' 'a' 'r' (prot4 'v' 'i' 't' s))))))))

/-- `part.replace("@", ".")` (test3.py line 249). -/
def restoreAt (s : List Char) : List Char :=
  s.map fun c => if c = '@' then '.' else c

/-- State of the period-split scanner: accumulating the current part
(reversed), or having just passed a `.` and accumulating whitespace
(reversed). -/
inductive PsState : Type
  | acc (cur : List Char)
  | dot (cur ws : List Char)
deriving Repr, DecidableEq

/-- Scanner for `re.split(r"(\.\s+)(?=[A-Z])", item)` combined with the loop
of test3.py lines 238-243: the split separators vanish but each non-final
part gets its period appended back. -/
def psAux : PsState → List Char → List (List Char)
  | .acc cur, [] => [cur.reverse]
  | .acc cur, c :: t =>
    if c = '.' then psAux (.dot cur []) t else psAux (.acc (c :: cur)) t
  | .dot cur ws, [] => [cur.reverse ++ '.' :: ws.reverse]
  | .dot cur ws, c :: t =>
    if isSpaceChar c then psAux (.dot cur (c :: ws)) t
    else if isUpperChar c && ws ≠ [] then
      (cur.reverse ++ ['.']) :: psAux (.acc [c]) t
    else if c = '.' then psAux (.dot (ws ++ '.' :: cur) []) t
    else psAux (.acc (c :: ws ++ '.' :: cur)) t

/-- Sentence-period split of one protected item (test3.py lines 236-243). -/
def periodSplit (s : List Char) : List (List Char) := psAux (.acc []) s

/-- The camel-seam matches of `re.finditer(r"([a-z])([A-Z][a-z])", part)`
(test3.py line 251): the returned numbers are `match.start() + 1`, i.e. the
indices of the uppercase characters, with `finditer`'s non-overlapping
three-character stride. -/
def seamIdxs (i : Nat) : List Char → List Nat
  | [] => []
  | [_] => []
  | [_, _] => []
  | a :: b :: c :: t =>
    if isLowerChar a && isUpperChar b && isLowerChar c then
      (i + 1) :: seamIdxs (i + 3) t
    else seamIdxs (i + 1) (b :: c :: t)

/-- `isPrefixB n h`: is `n` a prefix of `h` (plain character equality). -/
def isPrefixB : List Char → List Char → Bool
  | [], _ => true
  | _ :: _, [] => false
  | a :: n, b :: h => a = b && isPrefixB n h

/-- `containsSeg n h`: does `n` occur as a contiguous segment of `h`
(Python `n in h`). -/
def containsSeg (n : List Char) : List Char → Bool
  | [] => isPrefixB n []
  | c :: t => isPrefixB n (c :: t) || containsSeg n t

/-- The three guard rules of test3.py lines 256-272 for a candidate split
index: not inside an open parenthesis, no multiplying prefix in the six
characters before, and no `vitamin`/`extract`/`oil` in the ten characters
around. -/
def seamOk (part : List Char) (idx : Nat) : Bool :=
  ((part.take idx).count '(' ≤ (part.take idx).count ')') &&
  (!(["di", "tri", "tetra", "poly", "mono", "iso"].any fun p =>
      containsSeg p.data (lowerStr ((part.take idx).drop (idx - 6))))) &&
  (!(["vitamin", "extract", "oil"].any fun p =>
      containsSeg p.data (lowerStr ((part.take (idx + 10)).drop (idx - 10)))))

/-- Cutting a part at the valid split indices (test3.py lines 274-283):
middle pieces are stripped and kept only when nonempty, the final piece is
stripped and appended unconditionally. -/
def cutParts (part : List Char) (start : Nat) : List Nat → List (List Char)
  | [] => if start < part.length then [stripWs (part.drop start)] else []
  | i :: rest =>
    (if stripWs ((part.take i).drop start) ≠ [] then
      [stripWs ((part.take i).drop start)] else []) ++ cutParts part i rest

/-- Fusion detection for one part (test3.py lines 250-287). -/
def camelSplit (part : List Char) : List (List Char) :=
  match (seamIdxs 0 part).filter (seamOk part) with
  | [] => [part]
  | i :: rest => cutParts part 0 (i :: rest)

/-- Segmentation of a normalized span into raw candidate tokens
(test3.py lines 222-289): comma split, strip, drop items of length at most
two, abbreviation protection, period split, restoration, camel-seam split. -/
def segmentSpan (norm : List Char) : List (List Char) :=
  (((splitOnComma norm).map stripWs).filter fun item => 2 < item.length).flatMap
    fun item => (periodSplit (protectAbbrev item)).flatMap
      fun part => camelSplit (restoreAt part)

/-- The end-strip `re.sub(r"^[^a-zA-Z0-9(]+|[^a-zA-Z0-9)]+$", "", ing)`
(test3.py line 295): one leading run of characters other than alphanumerics
and `(` and one trailing run of characters other than alphanumerics and `)`
are removed. -/
def stripEnds (s : List Char) : List Char :=
  (((s.dropWhile fun c => !(isAlnumChar c || c = '(')).reverse.dropWhile
    fun c => !(isAlnumChar c || c = ')')).reverse)

/-- `re.sub(r"([A-Za-z])l([0-9])", r"\1-\2", ing)` (test3.py line 297). -/
def ocrFixL : List Char → List Char
  | [] => []
  | [c] => [c]
  | [c, d] => [c, d]
  | a :: b :: d :: t =>
    if isAlphaChar a && b = 'l' && isDigitChar d then a :: '-' :: d :: ocrFixL t
    else a :: ocrFixL (b :: d :: t)

/-- `re.sub(r"([A-Za-z])O([0-9])", r"\1-\2", ing)` (test3.py line 298). -/
def ocrFixO : List Char → List Char
  | [] => []
  | [c] => [c]
  | [c, d] => [c, d]
  | a :: b :: d :: t =>
    if isAlphaChar a && b = 'O' && isDigitChar d then a :: '-' :: d :: ocrFixO t
    else a :: ocrFixO (b :: d :: t)

/-- Final cleaning of one raw candidate (test3.py lines 293-301): strip,
end-strip, whitespace collapse, the two OCR confusion fixes, and the length
filter `if ing and len(ing) > 1`. -/
def cleanToken (s : List Char) : Option (List Char) :=
  let d := ocrFixO (ocrFixL (collapseWs (stripEnds (stripWs s))))
  if d ≠ [] && 1 < d.length then some d else none

/-- The final-cleanup loop of test3.py lines 291-303. -/
def finalClean (items : List (List Char)) : List (List Char) :=
  items.filterMap cleanToken

/-- The whole of `parse_ingredients_from_ocr` downstream of the header
extraction (test3.py lines 214-303), as a function of the extracted
ingredient span (`match.group(1).strip()` or the whole text). -/
def parse_ingredients_from_span (span : List Char) : List (List Char) :=
  finalClean (segmentSpan (normalizeText span))

/-! ## Reference-service lookup (Analyser.py, class EWGSkindeepAPI) -/

/-- One search-result tile of the EWG page: the `.product-name` text and the
(possibly empty, i.e. Python `None`) link.  The HTML scraping itself is the
out-of-scope collaborator; a query's tile list is the abstraction boundary. -/
structure Product : Type where
  name : List Char
  url : List Char
deriving Repr, DecidableEq

/-- The abstract Reference Service: the product tiles the search page shows
for a given query string. -/
def SearchDb : Type := List Char → List Product

/-- Longest-common-subsequence recursion with explicit fuel (every step
shortens the two lists by at least one character in total, so
`length a + length b` fuel is always enough). -/
def lcsAux : Nat → List Char → List Char → Nat
  | 0, _, _ => 0
  | _ + 1, [], _ => 0
  | _ + 1, _ :: _, [] => 0
  | fuel + 1, a :: as, b :: bs =>
    if a = b then lcsAux fuel as bs + 1
    else max (lcsAux fuel as (b :: bs)) (lcsAux fuel (a :: as) bs)

/-- Length of a longest common subsequence, the combinatorial core of
`Levenshtein.ratio` (with substitution cost 2 the distance is
`len(a) + len(b) - 2 * lcs(a, b)`). -/
def lcsLen (a b : List Char) : Nat := lcsAux (a.length + b.length) a b

/-- `Levenshtein.ratio(a, b) > 0.9` (Analyser.py line 294), as the integer
inequality `2 * lcs / (len a + len b) > 9 / 10`. -/
def ratioGt09 (a b : List Char) : Bool :=
  9 * (a.length + b.length) < 20 * lcsLen a b

/-- `EWGSkindeepAPI.find_matches` (Analyser.py lines 87-146): first
case-insensitively equal name wins immediately; with `exact_match_only` no
other tile is returned; otherwise the first tile whose name contains the
query, and failing that the first tile of all. -/
def find_matches (term : List Char) (exactOnly : Bool) (ps : List Product) :
    Option Product :=
  match ps.find? fun p => lowerStr p.name = lowerStr term with
  | some p => some p
  | none =>
    if exactOnly then none
    else
      match ps.find? fun p => containsSeg (lowerStr term) (lowerStr p.name) with
      | some p => some p
      | none => ps.head?

/-- The outcome of one `get_ingredient_data` call as reconciliation consumes
it: `result["ingredient_found"]`, `result.get("exact_match", False)` and
`result["ingredient_info"]["name"]`.  Hazard scores and concerns are scraped
from the ingredient page but never influence matching, so they are elided. -/
structure SvcResult : Type where
  found : Bool
  exact : Bool
  name : List Char
deriving Repr, DecidableEq

/-- `EWGSkindeepAPI.get_ingredient_data` (Analyser.py lines 251-321): a match
is found when `find_matches` returns a truthy name and url; `exact_match` is
`Levenshtein.ratio(search_term, name) > 0.9` on the case-preserved strings. -/
def get_ingredient_data (db : SearchDb) (term : List Char) (exactOnly : Bool) :
    SvcResult :=
  match find_matches term exactOnly (db term) with
  | none => ⟨false, false, []⟩
  | some p =>
    if p.name ≠ [] && p.url ≠ [] then ⟨true, ratioGt09 term p.name, p.name⟩
    else ⟨false, false, []⟩

/-! ## ReconciliationEngine (test3.py lines 306-433; identically
`IngredientAnalyzer.smart_analyze` / `smart_analyze_list`,
Analyser.py lines 378-549)

The engine only consumes `ingredient_found`, `exact_match` and the matched
name, so it is stated over an abstract oracle
`O : query -> exact_match_only -> SvcResult`; `get_ingredient_data db`
is the concrete instance. -/

/-- An oracle for the two lookup modes: `O q true` is
`analyze_ingredient(q)` alias `get_ingredient_data(q, exact_match_only=True)`,
and `O q false` is `get_ingredient_data(q, exact_match_only=False)`. -/
def Oracle : Type := List Char → Bool → SvcResult

/-- The `match_type` strings of the source. -/
inductive MatchTy : Type
  | exact
  | split_exact
  | fuzzy
  | combined_exact
  | combined_comma_exact
  | final_fuzzy
  | no_match
deriving Repr, DecidableEq

/-- One reconciliation outcome: the dictionaries test3.py builds, with
`original`, `corrected` (Python `None` as `none`), `match_type`, `data`. -/
structure MatchResult : Type where
  original : List Char
  corrected : Option (List Char)
  matchType : MatchTy
  data : Option SvcResult
deriving Repr, DecidableEq

/-- The word split of the split phase (test3.py lines 317-318):
`re.split(r"[\s,/\-]+", ingredient)` followed by the filter
`len(w) > 2 and w.lower() not in ["and", "with", "plus", "the"]`. -/
def isSplitSep (c : Char) : Bool :=
  isSpaceChar c || c = ',' || c = '/' || c = '-'

/-- The maximal runs of non-separator characters, in order (the nonempty
entries of the Python `re.split`). -/
def sepRuns : List Char → List (List Char)
  | [] => []
  | c :: t =>
    if isSplitSep c then sepRuns t
    else
      match sepRuns t with
      | [] => [[c]]
      | w :: r =>
        match t with
        | [] => [[c]]
        | d :: _ => if isSplitSep d then [c] :: w :: r else (c :: w) :: r

/-- The filtered word list of the split phase. -/
def splitWords (ing : List Char) : List (List Char) :=
  (sepRuns ing).filter fun w =>
    2 < w.length &&
      !(["and", "with", "plus", "the"].any fun sw => lowerStr w = sw.data)

/-- Success of the direct phase for one token: the verbatim exact-only query
reports `ingredient_found` and `exact_match` (test3.py line 309). -/
def directHit (O : Oracle) (ing : List Char) : Bool :=
  (O ing true).found && (O ing true).exact

/-- The split phase of `smart_analyze` (test3.py lines 320-337): attempted
only when more than one filtered word remains; `found_matches[0]`, i.e. the
first word whose exact-only query succeeds, wins. -/
def splitFirst (O : Oracle) (ing : List Char) : Option MatchResult :=
  if 1 < (splitWords ing).length then
    (splitWords ing).findSome? fun w =>
      let rw := O w true
      if rw.found && rw.exact then some ⟨w, some w, .split_exact, some rw⟩
      else none
  else none

/-- `smart_analyze` (test3.py lines 306-354): direct exact attempt, then the
split phase, then a fuzzy lookup, else `no_match`. -/
def smart_analyze (O : Oracle) (ing : List Char) : MatchResult :=
  if directHit O ing then ⟨ing, some ing, .exact, some (O ing true)⟩
  else
    match splitFirst O ing with
    | some m => m
    | none =>
      let rf := O ing false
      if rf.found then ⟨ing, some rf.name, .fuzzy, some rf⟩
      else ⟨ing, none, .no_match, none⟩

/-- Is a phase-1 result kept by `smart_analyze_list`
(`result["match_type"] in ["exact", "fuzzy"]`, test3.py line 365)? -/
def p1Kept (r : MatchResult) : Bool :=
  r.matchType = .exact || r.matchType = .fuzzy

/-- Phase 1 of `smart_analyze_list` (test3.py lines 361-370): the kept
results and the unmatched tokens, both in input order. -/
def phase1 (O : Oracle) : List (List Char) →
    List MatchResult × List (List Char)
  | [] => ([], [])
  | t :: ts =>
    let r := smart_analyze O t
    let rest := phase1 O ts
    if p1Kept r then (r :: rest.1, rest.2) else (rest.1, t :: rest.2)

/-- The trailing fuzzy lookup of test3.py lines 408-431 for one leftover
unmatched token. -/
def finalFuzzy (O : Oracle) (t : List Char) : MatchResult :=
  let r := O t false
  if r.found then ⟨t, some r.name, .final_fuzzy, some r⟩
  else ⟨t, none, .no_match, none⟩

/-- The combine loop of test3.py lines 374-431: the single index `i` scans
the unmatched list; a pair success advances by two, a failure by one, and the
trailing `while` only reaches the tokens left at the final index, i.e. at
most the last one. -/
def combineScan (O : Oracle) : List (List Char) → List MatchResult
  | a :: b :: t =>
    let r1 := O (a ++ ' ' :: b) true
    if r1.found && r1.exact then
      ⟨a ++ ' ' :: '+' :: ' ' :: b, some (a ++ ' ' :: b), .combined_exact,
        some r1⟩ :: combineScan O t
    else
      let r2 := O (a ++ ',' :: ' ' :: b) true
      if r2.found && r2.exact then
        ⟨a ++ ' ' :: '+' :: ' ' :: b, some (a ++ ',' :: ' ' :: b),
          .combined_comma_exact, some r2⟩ :: combineScan O t
      else combineScan O (b :: t)
  | [a] => [finalFuzzy O a]
  | [] => []

/-- `smart_analyze_list` (test3.py lines 357-433): phase-1 results first,
then — only when at least two tokens are unmatched — the combine scan
and its trailing fuzzy pass over the unmatched tokens. -/
def smart_analyze_list (O : Oracle) (ts : List (List Char)) :
    List MatchResult :=
  if 2 ≤ (phase1 O ts).2.length then
    (phase1 O ts).1 ++ combineScan O (phase1 O ts).2
  else (phase1 O ts).1

/-- `_make_request`'s rate limiting (Analyser.py lines 47-66): with the
limiter state `last` (`last_request_time`) and the current clock `now`, the
moment the request is actually issued.  `__init__` starts `last` at `0`. -/
def makeRequestTime (rate_limit last now : ℚ) : ℚ :=
  if now - last < rate_limit then last + rate_limit else now

/-! ## Post-processing of version 0.1 (img2text6.py, `remove_non_ingredients`,
lines 194-225): case-insensitive deduplication keeping first occurrences,
then the fixed non-ingredient filter. -/

/-- The dedup loop of img2text6.py lines 210-216, with its `seen` set of
lower-cased strings. -/
def dedupSeen (seen : List (List Char)) : List (List Char) → List (List Char)
  | [] => []
  | x :: t =>
    if lowerStr x ∈ seen then dedupSeen seen t
    else x :: dedupSeen (lowerStr x :: seen) t

/-- `any(re.search(pattern, ing, re.IGNORECASE) for pattern in
non_ingredient_patterns)` (img2text6.py lines 198-208, 221): pure numbers,
percentages, `may contain` statements, the bare words `and` / `contains` /
`ingredients` / `warning(s)`, and `caution` / `direction` starts. -/
def isNonIngredient (x : List Char) : Bool :=
  let l := lowerStr x
  (x ≠ [] && x.all fun c => isDigitChar c || c = '.') ||
  ((x.takeWhile fun c => isDigitChar c || c = '.') ≠ [] &&
    ((x.dropWhile fun c => isDigitChar c || c = '.').dropWhile isSpaceChar)
      = ['%']) ||
  (isPrefixB "may".data l && (l.drop 3).takeWhile isSpaceChar ≠ [] &&
    isPrefixB "contain".data ((l.drop 3).dropWhile isSpaceChar)) ||
  l = "and".data || l = "contains".data || l = "ingredients".data ||
  l = "warning".data || l = "warnings".data ||
  isPrefixB "caution".data l || isPrefixB "direction".data l

/-- `remove_non_ingredients` (img2text6.py lines 194-225). -/
def remove_non_ingredients (l : List (List Char)) : List (List Char) :=
  (dedupSeen [] l).filter fun x => !isNonIngredient x && decide (2 ≤ x.length)

/-! ## Concrete oracles and databases used by counterexamples and witnesses -/

/-- A service that never finds anything. -/
def oracleNone : Oracle := fun _ _ => ⟨false, false, []⟩

/-- A service knowing exactly the ingredient `aaa`. -/
def oracleAaa : Oracle := fun q _ =>
  if q = "aaa".data then ⟨true, true, "aaa".data⟩ else ⟨false, false, []⟩

/-- A service that fuzzy-matches `xxx` and exactly knows the combination
`xxx yyy`. -/
def oracleFuzzyCombine : Oracle := fun q eo =>
  if q = "xxx yyy".data then ⟨true, true, "xxx yyy".data⟩
  else if q = "xxx".data && !eo then ⟨true, false, "Xanthan".data⟩
  else ⟨false, false, []⟩

/-- A service knowing `bbb` and the combination `aaa ccc`. -/
def oracleCombinePair : Oracle := fun q _ =>
  if q = "bbb".data then ⟨true, true, "bbb".data⟩
  else if q = "aaa ccc".data then ⟨true, true, "aaa ccc".data⟩
  else ⟨false, false, []⟩

/-- A search page whose only tile is named `Glycerin`. -/
def dbGlycerin : SearchDb := fun _ => [⟨"Glycerin".data, "u".data⟩]

/-- A search page whose only tile is named `Aqua`. -/
def dbAqua : SearchDb := fun _ => [⟨"Aqua".data, "u".data⟩]

/-! ## The character rewrites of the segmentation pipeline (claim C9)

The pipeline rewrites single characters in place: the OCR confusion fixes of
test3.py lines 297-298 write `-` for `l` and for `O`, abbreviation protection
(lines 232-234) writes the placeholder `@` for `.` and the restoration
(line 249) writes `.` back for `@`, separator normalization (line 218) writes
`,` for `;` and for `:`, and the whitespace collapses (lines 216-217) write a
single `' '` for any whitespace character.  Everything else the pipeline does
only deletes characters, so each output token is a subsequence of the span up
to these pairs. -/

/-- The pipeline's character rewrites as (output, input) pairs.  The list is
closed under composition of the stage-level rewrites (the placeholder pair
`('@', '.')` only ever appears between protection and restoration). -/
def rewPairs : List (Char × Char) :=
  [('-', 'l'), ('-', 'O'), ('.', '@'), ('@', '.'),
   (' ', ' '), (' ', '\t'), (' ', '\n'), (' ', '\r'), (' ', '\x0b'),
   (' ', '\x0c'), (',', ';'), (',', ':')]

/-- Output character `a` may stand for input character `b`: either they are
equal or `(a, b)` is one of the pipeline's rewrite pairs. -/
def rewOk (a b : Char) : Prop := a = b ∨ (a, b) ∈ rewPairs

/-- `RelSub l₁ l₂`: `l₁` is a subsequence of `l₂` up to the pipeline's
character rewrites — `List.Sublist` with `rewOk` in place of equality at the
kept positions. -/
inductive RelSub : List Char → List Char → Prop
  | nil : RelSub [] []
  | skip (b : Char) {l₁ l₂ : List Char} : RelSub l₁ l₂ → RelSub l₁ (b :: l₂)
  | keep {a b : Char} {l₁ l₂ : List Char} :
      rewOk a b → RelSub l₁ l₂ → RelSub (a :: l₁) (b :: l₂)

/-- The string a `jhnStep` state stands for: the input characters buffered by
the scanner of normalizer rule 1 (in input order). -/
def jhnRecon : JhnState → List Char
  | .scan pend => pend.reverse
  | .hy pend ws => pend.reverse ++ '-' :: ws.reverse
  | .run2 => []

/-- The string a `jshStep` state stands for: the input characters buffered by
the scanner of normalizer rule 2 (in input order). -/
def jshRecon : JshState → List Char
  | .scan pend => pend.reverse
  | .ws1 pend ws => pend.reverse ++ ws.reverse
  | .dash pend ws => pend.reverse ++ ws.reverse ++ ['-']
  | .ws2 pend ws1 ws2 => pend.reverse ++ ws1.reverse ++ '-' :: ws2.reverse
  | .run2 => []

/-- The string a `psAux` state stands for: the input characters buffered by
the period-split scanner (in input order). -/
def psRecon : PsState → List Char
  | .acc cur => cur.reverse
  | .dot cur ws => cur.reverse ++ '.' :: ws.reverse

/-! ## Observers used by the claim statements -/

/-- First character of a token is an ASCII alphanumeric or `(`. -/
def headOk (l : List Char) : Bool :=
  match l with
  | [] => false
  | c :: _ => isAlnumChar c || c = '('

/-- Last character of a token is an ASCII alphanumeric or `)`. -/
def lastOk (l : List Char) : Bool :=
  match l.getLast? with
  | none => false
  | some c => isAlnumChar c || c = ')'

/-- Every whitespace character of the string is a plain `' '`. -/
def wsOnlySpace (s : List Char) : Bool :=
  s.all fun c => !isSpaceChar c || c = ' '

/-- No two adjacent characters of the string satisfy `p`. -/
def noPair (p : Char → Char → Bool) : List Char → Bool
  | [] => true
  | [_] => true
  | a :: b :: t => !p a b && noPair p (b :: t)

/-- Adjacent whitespace pair. -/
def dblWs (a b : Char) : Bool := isSpaceChar a && isSpaceChar b

/-- `(` followed by whitespace. -/
def parenWs (a b : Char) : Bool := a = '(' && isSpaceChar b

/-- Whitespace followed by `)`. -/
def wsParen (a b : Char) : Bool := isSpaceChar a && b = ')'

/-- No `;` or `:` characters. -/
def noSemiColon (s : List Char) : Bool := s.all fun c => !(c = ';' || c = ':')

/-! ## Claims C1, C2, C3: reconciliation control flow -/

/-- Claim C1, counterexample.  The phases are not run in the order
direct, split, combine, fuzzy, and a split success does not let the token
exit with its result: with a service that exactly knows the fragment `aaa`,
`smart_analyze` answers `split_exact` for the token `aaa bbb`, yet
`smart_analyze_list` discards that result and — the token being the only
unmatched one — produces no result for it at all.  Moreover a fuzzy match is
accepted for `xxx` in the per-token pass even though the combine query
`xxx yyy` would have matched exactly, so fuzzy is attempted before (indeed
instead of) the combine phase. -/
theorem C1_counterexample :
    (smart_analyze oracleAaa "aaa bbb".data).matchType = MatchTy.split_exact ∧
    smart_analyze_list oracleAaa ["aaa bbb".data] = [] ∧
    smart_analyze_list oracleFuzzyCombine ["xxx".data, "yyy".data] =
      [⟨"xxx".data, some "Xanthan".data, MatchTy.fuzzy,
        some ⟨true, false, "Xanthan".data⟩⟩] ∧
    (oracleFuzzyCombine ("xxx yyy".data) true).exact = true := by
  decide

/-- Claim C2, counterexample.  Output order does not follow input order:
with tokens `aaa, bbb, ccc` where only `bbb` direct-matches and the service
exactly knows `aaa ccc`, the result for `bbb` (input index 1) precedes the
combined result whose first constituent is `aaa` (input index 0); the
combined pair `aaa`/`ccc` is not even adjacent in the input. -/
theorem C2_counterexample :
    smart_analyze_list oracleCombinePair
        ["aaa".data, "bbb".data, "ccc".data] =
      [⟨"bbb".data, some "bbb".data, MatchTy.exact,
          some ⟨true, true, "bbb".data⟩⟩,
        ⟨"aaa + ccc".data, some "aaa ccc".data, MatchTy.combined_exact,
          some ⟨true, true, "aaa ccc".data⟩⟩] ∧
    List.indexOf "aaa".data ["aaa".data, "bbb".data, "ccc".data] <
      List.indexOf "bbb".data ["aaa".data, "bbb".data, "ccc".data] := by
  decide

/-- Claim C3: evaluation of the code at the failing input.  A list whose only
token exhausts every phase yields an empty result list — the token produces
no `no_match` `MatchResult` at all, because the whole phase-2 block of
`smart_analyze_list` (including its trailing fuzzy / `no_match` loop) is
guarded by `if len(unmatched) >= 2` (test3.py line 373, Analyser.py line
474). -/
theorem C3_failing_eval :
    smart_analyze_list oracleNone ["Xyzzqqplorp".data] = [] ∧
    smart_analyze oracleNone "Xyzzqqplorp".data =
      ⟨"Xyzzqqplorp".data, none, MatchTy.no_match, none⟩ := by
  decide

/-! ## Claim C4: exactness of the direct phase -/

/-- Claim C4, counterexample.  A case-insensitively equal hit is not reported
exact: for the query `glycerin` against the record name `Glycerin`,
`find_matches` returns the tile through its case-insensitive-equality branch,
but `exact_match` is `Levenshtein.ratio > 0.9` on the case-preserved strings
(Analyser.py lines 293-297), which is 0.875 here, so the direct phase does
not report `exact` (the token instead falls through to fuzzy). -/
theorem C4_counterexample :
    lowerStr "glycerin".data = lowerStr "Glycerin".data ∧
    get_ingredient_data dbGlycerin "glycerin".data true =
      ⟨true, false, "Glycerin".data⟩ ∧
    (smart_analyze (get_ingredient_data dbGlycerin)
      "glycerin".data).matchType ≠ MatchTy.exact := by
  decide

/-! ## Claim C5 / C7 / C8 / C9 counterexamples on segmentation -/

/-- Claim C5, counterexample.  The 0.312 pipeline performs no deduplication:
the span `water, water` (extracted, e.g., from the input
`ingredients: water, water`) yields two case-insensitively equal — in fact
identical — final tokens. -/
theorem C5_counterexample :
    parse_ingredients_from_span "water, water".data
      = ["water".data, "water".data] ∧
    ¬ List.Pairwise (fun a b => lowerStr a ≠ lowerStr b)
        (parse_ingredients_from_span "water, water".data) := by
  constructor
  · decide
  · intro h
    have h2 := h
    rw [show parse_ingredients_from_span "water, water".data
      = ["water".data, "water".data] from by decide] at h2
    rcases List.pairwise_cons.mp h2 with ⟨h3, -⟩
    exact h3 "water".data (List.mem_singleton.mpr rfl) rfl

/-- Claim C7, counterexample.  Normalization is not idempotent: on
`a - b - c` the non-overlapping spaced-hyphen rewrite leaves `a-b - c`,
and a second pass tightens it further to `a-b-c`. -/
theorem C7_counterexample :
    normalizeText "a - b - c".data = "a-b - c".data ∧
    normalizeText (normalizeText "a - b - c".data) = "a-b-c".data ∧
    normalizeText (normalizeText "a - b - c".data)
      ≠ normalizeText "a - b - c".data := by
  decide

/-- Claim C8, counterexample.  The maximal separator run `;;|` is not
replaced by a single comma: each `;` becomes its own `,` and `|` is not a
separator at all (test3.py line 218 is `re.sub(r"[;:]", ",", ...)`), so
`a;;|b` normalizes to `a,,|b`, not to the `a,b` the claim requires. -/
theorem C8_counterexample :
    normalizeText "a;;|b".data = "a,,|b".data ∧
    "a,,|b".data ≠ "a,b".data := by
  decide

/-- Claim C9, counterexample.  An output token need not be a subsequence of
the extracted span: the span `Cl5x` (extracted, e.g., from
`ingredients: Cl5x`) yields the single token `C-5x`, whose `-` — introduced
by the OCR confusion rewrite of test3.py line 297 — occurs nowhere in the
span. -/
theorem C9_counterexample :
    parse_ingredients_from_span "Cl5x".data = ["C-5x".data] ∧
    ¬ List.Sublist "C-5x".data "Cl5x".data := by
  refine ⟨by decide, fun h => ?_⟩
  have h2 : '-' ∈ "Cl5x".data := h.subset (by decide)
  exact absurd h2 (by decide)

/-! ## Claim C6: the rate limiter -/

/-- Claim C6: evaluation of the code at the failing input.  A fresh
`EWGSkindeepAPI()` starts with `last_request_time = 0`, so the fuzzy query of
test3.py line 339 — issued through a freshly constructed client instead of
the shared `ewg` — waits for nothing: with `rate_limit = 1`, a previous
request on the shared limiter at time 100 and the clock at 100.5, the fresh
instance fires at 100.5 (gap 0.5 < 1), whereas the shared limiter would have
deferred to 101. -/
theorem C6_failing_eval :
    makeRequestTime 1 0 (201 / 2) = 201 / 2 ∧
    makeRequestTime 1 100 (201 / 2) = 101 ∧
    (201 / 2 : ℚ) - 100 < 1 := by
  refine ⟨?_, ?_, by norm_num⟩
  · rw [makeRequestTime, if_neg (by norm_num)]
  · rw [makeRequestTime, if_pos (by norm_num)]
    norm_num

/-! ## Phase-structure lemmas for the reconciliation engine -/

/-- A split-phase result always carries `match_type = split_exact`. -/
theorem splitFirst_matchType {O : Oracle} {t : List Char} {m : MatchResult}
    (h : splitFirst O t = some m) : m.matchType = .split_exact := by
  unfold splitFirst at h
  split at h
  · obtain ⟨w, -, hfw⟩ := List.exists_of_findSome?_eq_some h
    dsimp at hfw
    split at hfw
    · cases hfw; rfl
    · cases hfw
  · cases h

/-- A phase-1 result that `smart_analyze_list` keeps (`exact` or `fuzzy`)
reports the token itself as `original`. -/
theorem smart_analyze_original {O : Oracle} {t : List Char}
    (h : p1Kept (smart_analyze O t) = true) :
    (smart_analyze O t).original = t := by
  rcases hd : directHit O t with - | -
  · rcases hs : splitFirst O t with - | m
    · simp only [smart_analyze, hd, Bool.false_eq_true, if_false, hs]
      split <;> rfl
    · have hm := splitFirst_matchType hs
      rw [smart_analyze, hd] at h
      simp only [Bool.false_eq_true, if_false, hs] at h
      simp [p1Kept, hm] at h
  · simp [smart_analyze, hd]

/-- The originals of the kept phase-1 results form a subsequence of the
input token list. -/
theorem phase1_fst_sublist (O : Oracle) :
    ∀ ts : List (List Char),
      List.Sublist ((phase1 O ts).1.map MatchResult.original) ts
  | [] => by simp [phase1]
  | t :: ts => by
    have ih := phase1_fst_sublist O ts
    unfold phase1
    rcases hk : p1Kept (smart_analyze O t) with - | -
    · simp only [hk, Bool.false_eq_true, if_false]
      exact ih.cons t
    · simp only [hk, if_true, List.map_cons]
      rw [smart_analyze_original hk]
      exact ih.cons₂ t

/-- The unmatched tokens of phase 1 form a subsequence of the input token
list. -/
theorem phase1_snd_sublist (O : Oracle) :
    ∀ ts : List (List Char), List.Sublist (phase1 O ts).2 ts
  | [] => by simp [phase1]
  | t :: ts => by
    have ih := phase1_snd_sublist O ts
    unfold phase1
    rcases hk : p1Kept (smart_analyze O t) with - | -
    · simp only [hk, Bool.false_eq_true, if_false]
      exact ih.cons₂ t
    · simp only [hk, if_true]
      exact ih.cons t

/-- Phase 1 sends a token to the unmatched list exactly when its
`smart_analyze` verdict is neither `exact` nor `fuzzy`. -/
theorem phase1_snd_filter (O : Oracle) :
    ∀ ts : List (List Char),
      (phase1 O ts).2 = ts.filter fun u => !p1Kept (smart_analyze O u)
  | [] => by simp [phase1]
  | t :: ts => by
    have ih := phase1_snd_filter O ts
    unfold phase1
    rcases hk : p1Kept (smart_analyze O t) with - | -
    · simp [hk, List.filter, ih]
    · simp [hk, List.filter, ih]

/-- `smart_analyze_list` is the kept phase-1 results followed by the combine
scan of the unmatched tokens, the latter present only when at least two
tokens are unmatched. -/
theorem smart_analyze_list_split (O : Oracle) (ts : List (List Char)) :
    smart_analyze_list O ts = (phase1 O ts).1 ++
      (if 2 ≤ (phase1 O ts).2.length then combineScan O (phase1 O ts).2
        else []) := by
  rw [smart_analyze_list]
  by_cases h2 : 2 ≤ (phase1 O ts).2.length
  · simp only [h2, if_true]
  · simp only [h2, if_false, List.append_nil]

/-- Claim C1 (amended): per token, `smart_analyze` attempts direct, then
split, then fuzzy — in that order, each phase only on failure of the
previous — and a direct or fuzzy success exits with that verdict; but a
split success, though returned by `smart_analyze`, is then discarded by
`smart_analyze_list`: kept phase-1 verdicts are exactly `exact` and `fuzzy`,
every other token (split successes included) is re-processed by the combine
scan, which runs — followed by the trailing fuzzy pass — only when at least
two tokens are unmatched. -/
theorem C1_phase_order (O : Oracle) (t : List Char) :
    (directHit O t = true →
      smart_analyze O t = ⟨t, some t, .exact, some (O t true)⟩) ∧
    (∀ m, directHit O t = false → splitFirst O t = some m →
      smart_analyze O t = m ∧ m.matchType = .split_exact) ∧
    (directHit O t = false → splitFirst O t = none →
      (O t false).found = true →
      smart_analyze O t =
        ⟨t, some (O t false).name, .fuzzy, some (O t false)⟩) ∧
    (directHit O t = false → splitFirst O t = none →
      (O t false).found = false →
      smart_analyze O t = ⟨t, none, .no_match, none⟩) ∧
    (∀ ts, (phase1 O ts).2 =
      ts.filter fun u => !p1Kept (smart_analyze O u)) ∧
    (∀ ts, smart_analyze_list O ts = (phase1 O ts).1 ++
      (if 2 ≤ (phase1 O ts).2.length then combineScan O (phase1 O ts).2
        else [])) := by
  refine ⟨fun h => ?_, fun m h hs => ?_, fun h hs hf => ?_,
    fun h hs hf => ?_, phase1_snd_filter O, smart_analyze_list_split O⟩
  · simp [smart_analyze, h]
  · exact ⟨by simp [smart_analyze, h, hs], splitFirst_matchType hs⟩
  · simp [smart_analyze, h, hs, hf]
  · simp [smart_analyze, h, hs, hf]

/-- Witness for C1: a token the direct phase resolves, at a concrete oracle. -/
theorem C1_phase_order_witness :
    smart_analyze (fun q _ => ⟨true, true, q⟩) "ab".data =
      ⟨"ab".data, some "ab".data, MatchTy.exact,
        some ⟨true, true, "ab".data⟩⟩ :=
  (C1_phase_order (fun q _ => ⟨true, true, q⟩) "ab".data).1 (by decide)

/-- Claim C2 (amended): the output is the kept phase-1 results (whose
originals follow input order — their indices are non-decreasing), followed by
the combine-scan results over the unmatched subsequence; relative order is
preserved within each of the two groups, but not across them, and a combined
pair is adjacent in the unmatched subsequence, not necessarily in the
input. -/
theorem C2_order_structure (O : Oracle) (ts : List (List Char)) :
    List.Sublist ((phase1 O ts).1.map MatchResult.original) ts ∧
    List.Sublist (phase1 O ts).2 ts ∧
    smart_analyze_list O ts = (phase1 O ts).1 ++
      (if 2 ≤ (phase1 O ts).2.length then combineScan O (phase1 O ts).2
        else []) :=
  ⟨phase1_fst_sublist O ts, phase1_snd_sublist O ts,
    smart_analyze_list_split O ts⟩

/-- Claim C4 (amended): with `exact_match_only` the lookup only ever returns
a record whose name is case-insensitively equal to the verbatim query, but
the direct phase reports `exact_match` if and only if additionally
`Levenshtein.ratio` of the case-preserved query and name exceeds 0.9
(Analyser.py lines 293-297); case-insensitive equality alone is not
sufficient. -/
theorem C4_direct_exactness (db : SearchDb) (q : List Char) :
    ((get_ingredient_data db q true).found = true →
      lowerStr (get_ingredient_data db q true).name = lowerStr q) ∧
    ((get_ingredient_data db q true).exact = true ↔
      (get_ingredient_data db q true).found = true ∧
        ratioGt09 q (get_ingredient_data db q true).name = true) := by
  rcases hf : (db q).find? (fun p => lowerStr p.name = lowerStr q) with - | p
  · have hg : get_ingredient_data db q true = ⟨false, false, []⟩ := by
      simp [get_ingredient_data, find_matches, hf]
    rw [hg]
    exact ⟨by simp, by simp⟩
  · have hp0 := List.find?_some hf
    simp only [decide_eq_true_eq] at hp0
    have hp : lowerStr p.name = lowerStr q := hp0
    have hg : get_ingredient_data db q true =
        (if p.name ≠ [] && p.url ≠ [] then
          (⟨true, ratioGt09 q p.name, p.name⟩ : SvcResult)
        else ⟨false, false, []⟩) := by
      simp [get_ingredient_data, find_matches, hf]
    split at hg
    · rw [hg]
      refine ⟨fun _ => hp, by simp⟩
    · rw [hg]
      exact ⟨by simp, by simp⟩

/-- Witness for C4: a found direct hit is case-insensitively equal to the
query, at a concrete database. -/
theorem C4_direct_exactness_witness :
    lowerStr (get_ingredient_data dbAqua "AQUA".data true).name
      = lowerStr "AQUA".data :=
  (C4_direct_exactness dbAqua "AQUA".data).1 (by decide)

/-! ## Claim C10: shape of the final tokens -/

/-- The head of a `dropWhile` residue falsifies the predicate. -/
theorem dropWhile_head_not (p : Char → Bool) :
    ∀ (l : List Char) {c : Char} {t : List Char},
      l.dropWhile p = c :: t → p c = false
  | [], _, _, h => by cases h
  | a :: l, c, t, h => by
    by_cases ha : p a
    · rw [List.dropWhile_cons_of_pos ha] at h
      exact dropWhile_head_not p l h
    · rw [List.dropWhile_cons_of_neg ha] at h
      cases h
      exact Bool.of_not_eq_true ha

/-- `stripEnds` output decomposes the trailing `dropWhile` of the input. -/
theorem stripEnds_reverse (s : List Char) :
    (stripEnds s).reverse =
      ((s.dropWhile fun c => !(isAlnumChar c || c = '(')).reverse.dropWhile
        fun c => !(isAlnumChar c || c = ')')) := by
  simp [stripEnds]

/-- A nonempty `stripEnds` output starts with an alphanumeric or `(`. -/
theorem stripEnds_headOk {s : List Char} (h : stripEnds s ≠ []) :
    headOk (stripEnds s) = true := by
  rcases he : stripEnds s with - | ⟨c, t⟩
  · exact absurd he h
  · obtain ⟨w, hw⟩ := (List.dropWhile_suffix
      (l := (s.dropWhile fun c => !(isAlnumChar c || c = '(')).reverse)
      (fun c => !(isAlnumChar c || c = ')')))
    have hz : s.dropWhile (fun c => !(isAlnumChar c || c = '(')) =
        (c :: t) ++ w.reverse := by
      have h2 : (s.dropWhile fun c => !(isAlnumChar c || c = '(')).reverse
          = w ++ (c :: t).reverse := by
        rw [← he, stripEnds_reverse]; exact hw.symm
      have h3 := congrArg List.reverse h2
      simpa using h3
    have hc := dropWhile_head_not _ s hz
    rcases hb : (isAlnumChar c || decide (c = '(')) with - | -
    · rw [hb] at hc; simp at hc
    · simp only [headOk]
      exact hb

/-- A nonempty `stripEnds` output ends with an alphanumeric or `)`. -/
theorem stripEnds_lastOk {s : List Char} (h : stripEnds s ≠ []) :
    lastOk (stripEnds s) = true := by
  rcases hr : (stripEnds s).reverse with - | ⟨c, t⟩
  · exact absurd (by simpa using congrArg List.reverse hr) h
  · have hc := dropWhile_head_not _ _ (stripEnds_reverse s ▸ hr)
    have hgl : (stripEnds s).getLast? = some c := by
      rw [List.getLast?_eq_head?_reverse, hr]; rfl
    rcases hb : (isAlnumChar c || decide (c = ')')) with - | -
    · rw [hb] at hc; simp at hc
    · simp only [lastOk, hgl]
      exact hb

/-- Alphanumerics and parentheses are not whitespace. -/
theorem not_space_of_headOkChar {c : Char}
    (h : (isAlnumChar c || c = '(') = true ∨ (isAlnumChar c || c = ')') = true) :
    isSpaceChar c = false := by
  rcases hs : isSpaceChar c with - | -
  · rfl
  · exfalso
    simp only [isSpaceChar, Bool.or_eq_true, decide_eq_true_eq] at hs
    rcases hs with ((((h1 | h1) | h1) | h1) | h1) | h1 <;> subst h1 <;>
      rcases h with h2 | h2 <;> exact absurd h2 (by decide)

/-- `collapseWs` keeps a non-whitespace head. -/
theorem collapseWs_cons_of_not_space {c : Char} {t : List Char}
    (h : isSpaceChar c = false) :
    collapseWs (c :: t) = c :: csAux false t := by
  simp [collapseWs, csAux, h]

/-- `csAux` keeps a non-whitespace last character. -/
theorem csAux_getLast (f : Bool) :
    ∀ (s : List Char) {c : Char}, s.getLast? = some c →
      isSpaceChar c = false →
      (csAux f s) ≠ [] ∧ (csAux f s).getLast? = some c
  | [], c, h, _ => by cases h
  | [a], c, h, hc => by
    have ha : a = c := by simpa using h
    subst ha
    simp [csAux, hc]
  | a :: b :: s, c, h, hc => by
    have h2 : (b :: s).getLast? = some c := by
      rw [← List.getLast?_cons_cons (a := a)]; exact h
    have ih := csAux_getLast true (b :: s) h2 hc
    have ih2 := csAux_getLast false (b :: s) h2 hc
    by_cases ha : isSpaceChar a
    · by_cases hf : f
      · subst hf
        rw [show csAux true (a :: b :: s) = csAux true (b :: s) by
          simp [csAux, ha]]
        exact ih
      · rw [Bool.not_eq_true] at hf
        subst hf
        rw [show csAux false (a :: b :: s) = ' ' :: csAux true (b :: s) by
          simp [csAux, ha]]
        refine ⟨by simp, ?_⟩
        rcases hcs : csAux true (b :: s) with - | ⟨d, r⟩
        · exact absurd hcs ih.1
        · rw [List.getLast?_cons_cons, ← hcs]
          exact ih.2
    · rw [show csAux f (a :: b :: s) = a :: csAux false (b :: s) by
        simp [csAux, ha]]
      refine ⟨by simp, ?_⟩
      rcases hcs : csAux false (b :: s) with - | ⟨d, r⟩
      · exact absurd hcs ih2.1
      · rw [List.getLast?_cons_cons, ← hcs]
        exact ih2.2

/-- `ocrFixL` preserves the head character. -/
theorem ocrFixL_head? : ∀ s : List Char, (ocrFixL s).head? = s.head?
  | [] => rfl
  | [c] => rfl
  | [c, d] => rfl
  | a :: b :: d :: t => by
    rw [ocrFixL]
    split <;> rfl

/-- `ocrFixO` preserves the head character. -/
theorem ocrFixO_head? : ∀ s : List Char, (ocrFixO s).head? = s.head?
  | [] => rfl
  | [c] => rfl
  | [c, d] => rfl
  | a :: b :: d :: t => by
    rw [ocrFixO]
    split <;> rfl

/-- Cons on a nonempty list keeps `getLast?`. -/
theorem getLast?_cons_of_ne_nil {a : Char} {l : List Char} (h : l ≠ []) :
    (a :: l).getLast? = l.getLast? := by
  rcases l with - | ⟨b, t⟩
  · exact absurd rfl h
  · exact List.getLast?_cons_cons

/-- `ocrFixL` sends nonempty lists to nonempty lists. -/
theorem ocrFixL_ne_nil {s : List Char} (h : s ≠ []) : ocrFixL s ≠ [] := by
  rcases s with - | ⟨c, t⟩
  · exact absurd rfl h
  · intro hn
    have hh := ocrFixL_head? (c :: t)
    rw [hn] at hh
    cases hh

/-- `ocrFixO` sends nonempty lists to nonempty lists. -/
theorem ocrFixO_ne_nil {s : List Char} (h : s ≠ []) : ocrFixO s ≠ [] := by
  rcases s with - | ⟨c, t⟩
  · exact absurd rfl h
  · intro hn
    have hh := ocrFixO_head? (c :: t)
    rw [hn] at hh
    cases hh

/-- `ocrFixL` preserves the last character. -/
theorem ocrFixL_getLast? : ∀ s : List Char, (ocrFixL s).getLast? = s.getLast?
  | [] => rfl
  | [c] => rfl
  | [c, d] => rfl
  | a :: b :: d :: t => by
    rw [ocrFixL]
    split
    · rcases t with - | ⟨e, r⟩
      · rfl
      · have ih := ocrFixL_getLast? (e :: r)
        have hne : ocrFixL (e :: r) ≠ [] := ocrFixL_ne_nil (by simp)
        simp only [List.getLast?_cons_cons]
        rw [getLast?_cons_of_ne_nil hne, ih]
    · have ih := ocrFixL_getLast? (b :: d :: t)
      have hne : ocrFixL (b :: d :: t) ≠ [] := ocrFixL_ne_nil (by simp)
      rw [getLast?_cons_of_ne_nil hne, ih]
      simp only [List.getLast?_cons_cons]

/-- `ocrFixO` preserves the last character. -/
theorem ocrFixO_getLast? : ∀ s : List Char, (ocrFixO s).getLast? = s.getLast?
  | [] => rfl
  | [c] => rfl
  | [c, d] => rfl
  | a :: b :: d :: t => by
    rw [ocrFixO]
    split
    · rcases t with - | ⟨e, r⟩
      · rfl
      · have ih := ocrFixO_getLast? (e :: r)
        have hne : ocrFixO (e :: r) ≠ [] := ocrFixO_ne_nil (by simp)
        simp only [List.getLast?_cons_cons]
        rw [getLast?_cons_of_ne_nil hne, ih]
    · have ih := ocrFixO_getLast? (b :: d :: t)
      have hne : ocrFixO (b :: d :: t) ≠ [] := ocrFixO_ne_nil (by simp)
      rw [getLast?_cons_of_ne_nil hne, ih]
      simp only [List.getLast?_cons_cons]

/-- Shape of a token that survives `cleanToken`: it starts with an ASCII
alphanumeric or `(`, ends with an ASCII alphanumeric or `)`, and has at least
two characters. -/
theorem cleanToken_shape {s tok : List Char} (h : cleanToken s = some tok) :
    headOk tok = true ∧ lastOk tok = true ∧ 2 ≤ tok.length := by
  simp only [cleanToken] at h
  split at h
  case isFalse => cases h
  case isTrue hd =>
    cases h
    rcases hee : stripEnds (stripWs s) with - | ⟨c, t⟩
    · rw [hee] at hd
      simp [collapseWs, csAux, ocrFixL, ocrFixO] at hd
    · have hhead : headOk (stripEnds (stripWs s)) = true :=
        stripEnds_headOk (by rw [hee]; simp)
      have hlast : lastOk (stripEnds (stripWs s)) = true :=
        stripEnds_lastOk (by rw [hee]; simp)
      rw [hee] at hhead hlast
      simp only [headOk] at hhead
      have hcns : isSpaceChar c = false := not_space_of_headOkChar (Or.inl hhead)
      rcases hgl : (c :: t).getLast? with - | cl
      · simp at hgl
      · simp only [lastOk, hgl] at hlast
        have hclns : isSpaceChar cl = false :=
          not_space_of_headOkChar (Or.inr hlast)
        have hcw : collapseWs (c :: t) = c :: csAux false t :=
          collapseWs_cons_of_not_space hcns
        have hcwl := csAux_getLast false (c :: t) hgl hclns
        rw [hcw]
        constructor
        · rcases hfx : ocrFixO (ocrFixL (c :: csAux false t)) with - | ⟨x, y⟩
          · exact absurd hfx
              (ocrFixO_ne_nil (ocrFixL_ne_nil (by simp)))
          · have hh : (ocrFixO (ocrFixL (c :: csAux false t))).head?
                = some c := by
              rw [ocrFixO_head?, ocrFixL_head?]; rfl
            rw [hfx] at hh
            have hx : x = c := by simpa using hh
            subst hx
            simpa [headOk] using hhead
        constructor
        · have hl : (ocrFixO (ocrFixL (c :: csAux false t))).getLast?
              = some cl := by
            rw [ocrFixO_getLast?, ocrFixL_getLast?, ← hcw]
            exact hcwl.2
          simp only [lastOk, hl]
          exact hlast
        · rw [hee, hcw] at hd
          have h2 := (Bool.and_eq_true _ _).mp hd
          simpa using h2.2

/-- Claim C10: every token returned by the final cleanup of
`parse_ingredients_from_ocr` begins with an ASCII alphanumeric or `(`, ends
with an ASCII alphanumeric or `)`, and has length at least two — in
particular no output token carries leading or trailing whitespace or stray
punctuation. -/
theorem C10_token_ends (span tok : List Char)
    (h : tok ∈ parse_ingredients_from_span span) :
    headOk tok = true ∧ lastOk tok = true ∧ 2 ≤ tok.length := by
  obtain ⟨raw, -, hclean⟩ := List.mem_filterMap.mp h
  exact cleanToken_shape hclean

/-- Witness for C10, on the straightforward two-token span. -/
theorem C10_token_ends_witness :
    headOk "Water".data = true ∧ lastOk "Water".data = true ∧
      2 ≤ "Water".data.length :=
  C10_token_ends "Water, Glycerin".data "Water".data (by decide)

/-! ## Claim C5: token-list invariants -/

/-- `dedupSeen` returns a subsequence of its input. -/
theorem dedupSeen_sublist :
    ∀ (l seen : List (List Char)), List.Sublist (dedupSeen seen l) l
  | [], _ => List.Sublist.refl []
  | x :: t, seen => by
    by_cases hx : lowerStr x ∈ seen
    · rw [dedupSeen, if_pos hx]
      exact (dedupSeen_sublist t seen).cons x
    · rw [dedupSeen, if_neg hx]
      exact (dedupSeen_sublist t (lowerStr x :: seen)).cons₂ x

/-- The output of `dedupSeen` avoids the `seen` set and is pairwise
case-insensitively distinct. -/
theorem dedupSeen_invariant :
    ∀ (l seen : List (List Char)),
      (∀ y ∈ dedupSeen seen l, lowerStr y ∉ seen) ∧
      List.Pairwise (fun a b => lowerStr a ≠ lowerStr b) (dedupSeen seen l)
  | [], seen => by simp [dedupSeen]
  | x :: t, seen => by
    by_cases hx : lowerStr x ∈ seen
    · rw [dedupSeen, if_pos hx]
      exact dedupSeen_invariant t seen
    · rw [dedupSeen, if_neg hx]
      have ih := dedupSeen_invariant t (lowerStr x :: seen)
      constructor
      · intro y hy
        rcases List.mem_cons.mp hy with rfl | hy2
        · exact hx
        · exact fun hs => ih.1 y hy2 (List.mem_cons_of_mem _ hs)
      · refine List.pairwise_cons.mpr ⟨fun b hb he => ?_, ih.2⟩
        exact ih.1 b hb (by rw [← he]; exact List.mem_cons_self _ _)

/-- Every input token's case-insensitive class is represented in the
`dedupSeen` output (or was already in `seen`). -/
theorem dedupSeen_represents :
    ∀ (l seen : List (List Char)) (x : List Char), x ∈ l →
      lowerStr x ∈ seen ∨ lowerStr x ∈ (dedupSeen seen l).map lowerStr
  | [], _, x, h => absurd h (by simp)
  | y :: t, seen, x, h => by
    by_cases hy : lowerStr y ∈ seen
    · rw [dedupSeen, if_pos hy]
      rcases List.mem_cons.mp h with rfl | h2
      · exact Or.inl hy
      · exact dedupSeen_represents t seen x h2
    · rw [dedupSeen, if_neg hy]
      rcases List.mem_cons.mp h with rfl | h2
      · exact Or.inr (by simp)
      · rcases dedupSeen_represents t (lowerStr y :: seen) x h2 with hin | hin
        · rcases List.mem_cons.mp hin with he | hseen
          · exact Or.inr (by simp [he])
          · exact Or.inl hseen
        · exact Or.inr (by simp [hin])

/-- Claim C5 (amended): every final token of the 0.312 pipeline has length at
least two, but that pipeline deduplicates and stop-lists nothing; the
deduplication and non-ingredient filtering described by the claim are those
of `remove_non_ingredients` (img2text6.py, version 0.1), whose output is a
subsequence of its input (first occurrences kept in original casing and
order), pairwise case-insensitively distinct, free of non-ingredient-pattern
matches, with all entries of length at least two, and representing every
input token's case-insensitive class. -/
theorem C5_token_invariants :
    (∀ span tok, tok ∈ parse_ingredients_from_span span → 2 ≤ tok.length) ∧
    (∀ l : List (List Char),
      List.Sublist (remove_non_ingredients l) l ∧
      List.Pairwise (fun a b => lowerStr a ≠ lowerStr b)
        (remove_non_ingredients l) ∧
      (∀ x ∈ remove_non_ingredients l,
        isNonIngredient x = false ∧ 2 ≤ x.length) ∧
      (∀ x ∈ l, ∃ y ∈ dedupSeen [] l, lowerStr y = lowerStr x)) := by
  constructor
  · intro span tok h
    obtain ⟨raw, -, hclean⟩ := List.mem_filterMap.mp h
    exact (cleanToken_shape hclean).2.2
  · intro l
    refine ⟨(List.filter_sublist _).trans (dedupSeen_sublist l []), ?_, ?_, ?_⟩
    · exact List.Pairwise.sublist (List.filter_sublist _)
        (dedupSeen_invariant l []).2
    · intro x hx
      have h2 := (List.mem_filter.mp hx).2
      have h3 := (Bool.and_eq_true _ _).mp h2
      refine ⟨by simpa using h3.1, by simpa using h3.2⟩
    · intro x hx
      rcases dedupSeen_represents l [] x hx with hin | hin
      · simp at hin
      · obtain ⟨y, hy, he⟩ := List.mem_map.mp hin
        exact ⟨y, hy, he⟩

/-- Witness for C5: concrete instances of both parts. -/
theorem C5_token_invariants_witness :
    2 ≤ "water".data.length ∧
    List.Sublist (remove_non_ingredients ["Water".data, "water".data])
      ["Water".data, "water".data] :=
  ⟨C5_token_invariants.1 "water".data "water".data (by decide),
    (C5_token_invariants.2 ["Water".data, "water".data]).1⟩

/-! ## Claim C7: idempotence analysis of the normalizer

The normalized output satisfies five structural invariants (whitespace is a
lone `' '`, no `;`/`:`, no whitespace just after `(` or just before `)`);
each of the seven rules is the identity on strings satisfying the invariants
relevant to it — except the spaced-hyphen rule, whose non-overlapping
replacement can leave fresh matches.  Hence re-normalizing equals re-running
just that one rule. -/

/-- The six ASCII whitespace characters. -/
theorem ws_char_cases {c : Char} (h : isSpaceChar c = true) :
    c = ' ' ∨ c = '\t' ∨ c = '\n' ∨ c = '\r' ∨ c = '\x0b' ∨ c = '\x0c' := by
  simp only [isSpaceChar, Bool.or_eq_true, decide_eq_true_eq] at h
  tauto

/-- Newlines are whitespace. -/
theorem ws_of_nl {c : Char} (h : isNLChar c = true) : isSpaceChar c = true := by
  simp only [isNLChar, Bool.or_eq_true, decide_eq_true_eq] at h
  rcases h with h | h <;> subst h <;> decide

/-- In a `wsOnlySpace` string every whitespace character is `' '`. -/
theorem wsOnly_mem {s : List Char} (hA : wsOnlySpace s = true) {c : Char}
    (hc : c ∈ s) (hw : isSpaceChar c = true) : c = ' ' := by
  have h2 := List.all_eq_true.mp hA c hc
  rw [hw] at h2
  simpa using h2

/-- A `wsOnlySpace` string contains no newline characters. -/
theorem noNL_of_wsOnly {s : List Char} (hA : wsOnlySpace s = true) :
    ∀ c ∈ s, isNLChar c = false := by
  intro c hc
  rcases hn : isNLChar c with - | -
  · rfl
  · have hw := ws_of_nl hn
    have he := wsOnly_mem hA hc hw
    subst he
    cases hn

/-- `noPair` of a tail. -/
theorem noPair_tail {p : Char → Char → Bool} {a : Char} {t : List Char}
    (h : noPair p (a :: t) = true) : noPair p t = true := by
  rcases t with - | ⟨b, r⟩
  · rfl
  · exact ((Bool.and_eq_true _ _).mp h).2

/-- The adjacent pair at the head of a `noPair` string. -/
theorem noPair_head {p : Char → Char → Bool} {a b : Char} {t : List Char}
    (h : noPair p (a :: b :: t) = true) : p a b = false := by
  have h2 := ((Bool.and_eq_true _ _).mp h).1
  simpa using h2

/-- Building `noPair` from a head whose pair with any successor is benign. -/
theorem noPair_cons {p : Char → Char → Bool} {c : Char} {X : List Char}
    (h1 : ∀ d r, X = d :: r → p c d = false) (h2 : noPair p X = true) :
    noPair p (c :: X) = true := by
  rcases X with - | ⟨d, r⟩
  · rfl
  · rw [noPair]
    rw [h1 d r rfl]
    simpa using h2

/-! ### Identity lemmas: each rule fixes strings with the right invariant -/

/-- Rule 1 is the identity on newline-free strings (state-machine version). -/
theorem jhnStep_noNL :
    ∀ s : List Char, (∀ c ∈ s, isNLChar c = false) →
      (∀ pend, jhnStep (.scan pend) s = pend.reverse ++ s) ∧
      (∀ pend ws, (∀ c ∈ ws, isNLChar c = false) →
        jhnStep (.hy pend ws) s = pend.reverse ++ '-' :: ws.reverse ++ s)
  | [], _ => by
    refine ⟨fun pend => by simp [jhnStep], fun pend ws _ => by simp [jhnStep]⟩
  | c :: t, h => by
    have ht : ∀ x ∈ t, isNLChar x = false :=
      fun x hx => h x (List.mem_cons_of_mem _ hx)
    have ih := jhnStep_noNL t ht
    constructor
    · intro pend
      rw [jhnStep]
      by_cases hw : isWordChar c
      · rw [if_pos hw, ih.1 (c :: pend)]
        simp
      · rw [if_neg hw]
        by_cases hd : c = '-' && pend ≠ []
        · rw [if_pos hd, ih.2 pend [] (by simp)]
          have hc : c = '-' := by
            have := (Bool.and_eq_true _ _).mp hd
            simpa using this.1
          subst hc
          simp
        · rw [if_neg hd, ih.1 []]
          simp
    · intro pend ws hws
      rw [jhnStep]
      by_cases hsp : isSpaceChar c
      · rw [if_pos hsp,
          ih.2 pend (c :: ws)
            (by
              intro x hx
              rcases List.mem_cons.mp hx with rfl | hx2
              · exact h x (List.mem_cons_self _ _)
              · exact hws x hx2)]
        simp
      · rw [if_neg hsp]
        have hany : ws.any isNLChar = false := by
          rcases ha : ws.any isNLChar with - | -
          · rfl
          · obtain ⟨x, hx, hnx⟩ := List.any_eq_true.mp ha
            rw [hws x hx] at hnx
            cases hnx
        by_cases hw : isWordChar c
        · rw [if_neg (by simp [hany]), if_pos hw, ih.1 [c]]
          simp
        · rw [if_neg (by simp [hany]), if_neg hw, ih.1 []]
          simp

/-- Rule 1 fixes newline-free strings. -/
theorem joinHyphenNL_id {s : List Char} (h : ∀ c ∈ s, isNLChar c = false) :
    joinHyphenNL s = s := by
  rw [joinHyphenNL, (jhnStep_noNL s h).1 []]
  rfl

/-- Rule 3 fixes newline-free strings. -/
theorem collapseNL_id {s : List Char} (h : ∀ c ∈ s, isNLChar c = false) :
    collapseNL s = s := by
  rw [collapseNL]
  induction s with
  | nil => rfl
  | cons c t ih =>
    rw [cnAux, if_neg (by rw [h c (List.mem_cons_self _ _)]; simp)]
    congr 1
    exact ih fun x hx => h x (List.mem_cons_of_mem _ hx)

/-- Rule 4 fixes strings whose whitespace is lone `' '` characters. -/
theorem csAux_id :
    ∀ s : List Char, wsOnlySpace s = true → noPair dblWs s = true →
      csAux false s = s ∧
        ((∀ d r, s = d :: r → isSpaceChar d = false) → csAux true s = s)
  | [], _, _ => ⟨rfl, fun _ => rfl⟩
  | c :: t, hA, hB => by
    have hAt : wsOnlySpace t = true := by
      have := List.all_eq_true.mp hA
      exact List.all_eq_true.mpr fun x hx => this x (List.mem_cons_of_mem _ hx)
    have ih := csAux_id t hAt (noPair_tail hB)
    constructor
    · by_cases hw : isSpaceChar c
      · have hsp : c = ' ' := wsOnly_mem hA (List.mem_cons_self _ _) hw
        rw [csAux, if_pos hw]
        have hth : ∀ d r, t = d :: r → isSpaceChar d = false := by
          intro d r hdr
          subst hdr
          have := noPair_head hB
          simp only [dblWs, hw, Bool.true_and] at this
          exact this
        rw [ih.2 hth, hsp]
        simp
      · rw [csAux, if_neg hw, ih.1]
    · intro hh
      have hw : isSpaceChar c = false := hh c t rfl
      rw [csAux, if_neg (by rw [hw]; simp), ih.1]

/-- Rule 4 as `collapseWs`. -/
theorem collapseWs_id {s : List Char} (hA : wsOnlySpace s = true)
    (hB : noPair dblWs s = true) : collapseWs s = s :=
  (csAux_id s hA hB).1

/-- Rule 5 fixes strings without `;` or `:`. -/
theorem sepToComma_id {s : List Char} (h : noSemiColon s = true) :
    sepToComma s = s := by
  rw [sepToComma]
  induction s with
  | nil => rfl
  | cons c t ih =>
    have hc := List.all_eq_true.mp h c (List.mem_cons_self _ _)
    have hcs : sepChar c = c := by
      rw [sepChar, if_neg (by simpa using hc)]
    rw [List.map_cons, hcs]
    congr 1
    exact ih (List.all_eq_true.mpr fun x hx =>
      List.all_eq_true.mp h x (List.mem_cons_of_mem _ hx))

/-- Rule 6 fixes strings with no whitespace after `(`. -/
theorem opfAux_id :
    ∀ s : List Char, noPair parenWs s = true →
      opfAux false s = s ∧
        ((∀ d r, s = d :: r → isSpaceChar d = false) → opfAux true s = s)
  | [], _ => ⟨rfl, fun _ => rfl⟩
  | c :: t, hD => by
    have ih := opfAux_id t (noPair_tail hD)
    have hmain : (if c = '(' then '(' :: opfAux true t else c :: opfAux false t)
        = c :: t := by
      by_cases hp : c = '('
      · subst hp
        rw [if_pos rfl]
        congr 1
        refine ih.2 ?_
        intro d r hdr
        subst hdr
        have := noPair_head hD
        simpa [parenWs] using this
      · rw [if_neg hp, ih.1]
    constructor
    · rw [opfAux]
      rw [if_neg (by simp)]
      exact hmain
    · intro hh
      have hw : isSpaceChar c = false := hh c t rfl
      rw [opfAux, if_neg (by rw [hw]; simp)]
      exact hmain

/-- Rule 6 as `openParenFix`. -/
theorem openParenFix_id {s : List Char} (hD : noPair parenWs s = true) :
    openParenFix s = s :=
  (opfAux_id s hD).1

/-- Rule 7 fixes strings with no whitespace before `)` (with the pending
whitespace-run accumulator generalized). -/
theorem cpfAux_id :
    ∀ s : List Char, noPair wsParen s = true →
      ∀ acc : List Char,
        (acc ≠ [] → ∀ d r, s = d :: r → ¬(d = ')')) →
        cpfAux acc s = acc.reverse ++ s
  | [], _, acc, _ => by simp [cpfAux]
  | c :: t, hE, acc, hacc => by
    rw [cpfAux]
    by_cases hw : isSpaceChar c
    · rw [if_pos hw]
      rw [cpfAux_id t (noPair_tail hE) (c :: acc)
        (by
          intro _ d r hdr
          subst hdr
          have := noPair_head hE
          simp only [wsParen, hw, Bool.true_and] at this
          exact of_decide_eq_false this)]
      simp
    · rw [if_neg hw]
      have hnr : ¬((decide (c = ')') && decide (acc ≠ [])) = true) := by
        intro hb
        have h2 := (Bool.and_eq_true _ _).mp hb
        have hc : c = ')' := by simpa using h2.1
        have hane : acc ≠ [] := by simpa using h2.2
        exact absurd hc (hacc hane c t rfl)
      rw [if_neg hnr]
      rw [cpfAux_id t (noPair_tail hE) [] (by simp)]
      simp

/-- Rule 7 as `closeParenFix`. -/
theorem closeParenFix_id {s : List Char} (hE : noPair wsParen s = true) :
    closeParenFix s = s := by
  rw [closeParenFix, cpfAux_id s hE [] (by simp)]
  rfl

/-! ### Invariant establishment along the normalizer chain -/

/-- `collapseWs` output: whitespace is lone `' '` characters (and in the
in-run state the output starts with a non-space). -/
theorem csAux_out :
    ∀ s : List Char,
      (wsOnlySpace (csAux false s) = true ∧
        noPair dblWs (csAux false s) = true) ∧
      (wsOnlySpace (csAux true s) = true ∧
        noPair dblWs (csAux true s) = true ∧
        ∀ d r, csAux true s = d :: r → isSpaceChar d = false)
  | [] => by
    refine ⟨⟨rfl, rfl⟩, rfl, rfl, ?_⟩
    intro d r h
    cases h
  | c :: t => by
    have ih := csAux_out t
    by_cases hw : isSpaceChar c
    · have h1 : csAux false (c :: t) = ' ' :: csAux true t := by
        simp [csAux, hw]
      have h2 : csAux true (c :: t) = csAux true t := by
        simp [csAux, hw]
      have hA : wsOnlySpace (' ' :: csAux true t) = true := by
        simp only [wsOnlySpace, List.all_cons, Bool.and_eq_true]
        exact ⟨by decide, ih.2.1⟩
      have hB : noPair dblWs (' ' :: csAux true t) = true := by
        refine noPair_cons (fun d r hdr => ?_) ih.2.2.1
        have hd := ih.2.2.2 d r hdr
        simp [dblWs, hd]
      rw [h1, h2]
      exact ⟨⟨hA, hB⟩, ih.2.1, ih.2.2.1, ih.2.2.2⟩
    · have hwf : isSpaceChar c = false := by
        rcases h' : isSpaceChar c with - | -
        · rfl
        · exact absurd h' hw
      have h1 : csAux false (c :: t) = c :: csAux false t := by
        simp [csAux, hwf]
      have h2 : csAux true (c :: t) = c :: csAux false t := by
        simp [csAux, hwf]
      have hA : wsOnlySpace (c :: csAux false t) = true := by
        simp only [wsOnlySpace, List.all_cons, Bool.and_eq_true]
        exact ⟨by simp [hwf], ih.1.1⟩
      have hB : noPair dblWs (c :: csAux false t) = true := by
        refine noPair_cons (fun d r _ => ?_) ih.1.2
        simp [dblWs, hwf]
      rw [h1, h2]
      refine ⟨⟨hA, hB⟩, hA, hB, fun d r hdr => ?_⟩
      injection hdr with h3 hdr2
      rw [← h3]
      exact hwf

/-- `sepChar` preserves whitespace status. -/
theorem sepChar_ws (c : Char) : isSpaceChar (sepChar c) = isSpaceChar c := by
  rw [sepChar]
  split
  · rename_i h
    have h2 : c = ';' ∨ c = ':' := by simpa using h
    rcases h2 with h2 | h2 <;> subst h2 <;> decide
  · rfl

/-- Rule 5 preserves the lone-space invariant. -/
theorem sep_A {s : List Char} (h : wsOnlySpace s = true) :
    wsOnlySpace (sepToComma s) = true := by
  rw [sepToComma]
  refine List.all_eq_true.mpr ?_
  intro x hx
  obtain ⟨c, hc, rfl⟩ := List.mem_map.mp hx
  rcases hwc : isSpaceChar c with - | -
  · simp [sepChar_ws c, hwc]
  · have hc2 : c = ' ' := wsOnly_mem h hc hwc
    subst hc2
    decide

/-- Rule 5 preserves the no-double-whitespace invariant. -/
theorem sep_B : ∀ s : List Char, noPair dblWs s = true →
    noPair dblWs (sepToComma s) = true
  | [] => fun _ => rfl
  | [a] => fun _ => rfl
  | a :: b :: t => fun h => by
    have ih := sep_B (b :: t) (noPair_tail h)
    have hab := noPair_head h
    show noPair dblWs (sepChar a :: sepChar b :: (b :: t).tail.map sepChar)
      = true
    rw [noPair]
    refine (Bool.and_eq_true _ _).mpr ⟨?_, ih⟩
    have he : dblWs (sepChar a) (sepChar b) = dblWs a b := by
      simp [dblWs, sepChar_ws]
    rw [he, hab]
    rfl

/-- Rule 5 leaves no `;` or `:`. -/
theorem sep_noSemi (s : List Char) : noSemiColon (sepToComma s) = true := by
  rw [sepToComma]
  refine List.all_eq_true.mpr ?_
  intro x hx
  obtain ⟨c, -, rfl⟩ := List.mem_map.mp hx
  rw [sepChar]
  split
  · decide
  · rename_i h
    simpa using h

/-- `opfAux` only ever emits characters of its input. -/
theorem opfAux_all (p : Char → Bool) :
    ∀ (s : List Char) (f : Bool), s.all p = true → (opfAux f s).all p = true
  | [], _, _ => rfl
  | c :: t, f, h => by
    have h2 := (Bool.and_eq_true _ _).mp ((List.all_cons ..).symm ▸ h)
    rw [opfAux]
    by_cases hsk : (f && isSpaceChar c) = true
    · rw [if_pos hsk]
      exact opfAux_all p t true h2.2
    · rw [if_neg hsk]
      by_cases hp : c = '('
      · rw [if_pos hp]
        rw [List.all_cons]
        refine (Bool.and_eq_true _ _).mpr ⟨hp ▸ h2.1, opfAux_all p t true h2.2⟩
      · rw [if_neg hp]
        rw [List.all_cons]
        exact (Bool.and_eq_true _ _).mpr ⟨h2.1, opfAux_all p t false h2.2⟩

/-- One step of `opfAux` in scan state. -/
theorem opfAux_false_cons (c : Char) (t : List Char) :
    opfAux false (c :: t) =
      if c = '(' then '(' :: opfAux true t else c :: opfAux false t := by
  rw [opfAux, if_neg (by simp)]

/-- In skip state the output never starts with whitespace. -/
theorem opfAux_true_head :
    ∀ (t : List Char) (d : Char) (r : List Char),
      opfAux true t = d :: r → isSpaceChar d = false
  | [], d, r, h => by cases h
  | c :: t, d, r, h => by
    rw [opfAux] at h
    by_cases hw : isSpaceChar c
    · rw [if_pos (by simp [hw])] at h
      exact opfAux_true_head t d r h
    · have hwf : isSpaceChar c = false := by
        rcases h' : isSpaceChar c with - | -
        · rfl
        · exact absurd h' hw
      rw [if_neg (by simp [hwf])] at h
      by_cases hp : c = '('
      · rw [if_pos hp] at h
        injection h with h1 hrest
        rw [← h1]
        decide
      · rw [if_neg hp] at h
        injection h with h1 hrest
        rw [← h1]
        exact hwf

/-- Rule 6 preserves the no-double-whitespace invariant. -/
theorem opf_B : ∀ s : List Char, noPair dblWs s = true →
    noPair dblWs (opfAux false s) = true ∧ noPair dblWs (opfAux true s) = true
  | [], _ => ⟨rfl, rfl⟩
  | c :: t, h => by
    have ih := opf_B t (noPair_tail h)
    by_cases hw : isSpaceChar c
    · have hcp : ¬(c = '(') := by
        rcases ws_char_cases hw with h2 | h2 | h2 | h2 | h2 | h2 <;>
          subst h2 <;> decide
      have h1 : opfAux false (c :: t) = c :: opfAux false t := by
        rw [opfAux_false_cons, if_neg hcp]
      have h2 : opfAux true (c :: t) = opfAux true t := by
        rw [opfAux, if_pos (by simp [hw])]
      constructor
      · rw [h1]
        refine noPair_cons (fun d r hdr => ?_) ih.1
        rcases t with - | ⟨e, t'⟩
        · cases hdr
        · rw [opfAux_false_cons] at hdr
          have hce := noPair_head h
          by_cases hp : e = '('
          · rw [if_pos hp] at hdr
            injection hdr with h3 hdr2
            rw [← h3]
            simp [dblWs, isSpaceChar]
          · rw [if_neg hp] at hdr
            injection hdr with h3 hdr2
            rw [← h3]
            exact hce
      · rw [h2]
        exact ih.2
    · have hwf : isSpaceChar c = false := by
        rcases h' : isSpaceChar c with - | -
        · rfl
        · exact absurd h' hw
      have hgoal : noPair dblWs
          (if c = '(' then '(' :: opfAux true t else c :: opfAux false t)
          = true := by
        by_cases hp : c = '('
        · rw [if_pos hp]
          exact noPair_cons (fun d r _ => by simp [dblWs, isSpaceChar]) ih.2
        · rw [if_neg hp]
          exact noPair_cons (fun d r _ => by simp [dblWs, hwf]) ih.1
      constructor
      · rw [opfAux_false_cons]
        exact hgoal
      · rw [opfAux, if_neg (by simp [hwf])]
        exact hgoal

/-- Rule 6 leaves no whitespace after `(`. -/
theorem opf_D : ∀ s : List Char,
    noPair parenWs (opfAux false s) = true ∧
      noPair parenWs (opfAux true s) = true
  | [] => ⟨rfl, rfl⟩
  | c :: t => by
    have ih := opf_D t
    have hgoal : noPair parenWs
        (if c = '(' then '(' :: opfAux true t else c :: opfAux false t)
        = true := by
      by_cases hp : c = '('
      · rw [if_pos hp]
        refine noPair_cons (fun d r hdr => ?_) ih.2
        have hd := opfAux_true_head t d r hdr
        simp [parenWs, hd]
      · rw [if_neg hp]
        exact noPair_cons (fun d r _ => by simp [parenWs, hp]) ih.1
    constructor
    · rw [opfAux_false_cons]
      exact hgoal
    · rw [opfAux]
      by_cases hw : isSpaceChar c
      · rw [if_pos (by simp [hw])]
        exact ih.2
      · have hwf : isSpaceChar c = false := by
          rcases h' : isSpaceChar c with - | -
          · rfl
          · exact absurd h' hw
        rw [if_neg (by simp [hwf])]
        exact hgoal

/-- `cpfAux` only ever emits characters of its accumulator or input. -/
theorem cpfAux_all (p : Char → Bool) :
    ∀ (s acc : List Char), acc.all p = true → s.all p = true →
      (cpfAux acc s).all p = true
  | [], acc, hacc, _ => by
    rw [cpfAux]
    simpa using hacc
  | c :: t, acc, hacc, h => by
    have h2 := (Bool.and_eq_true _ _).mp ((List.all_cons ..).symm ▸ h)
    rw [cpfAux]
    by_cases hw : isSpaceChar c
    · rw [if_pos hw]
      exact cpfAux_all p t (c :: acc)
        (by rw [List.all_cons]; exact (Bool.and_eq_true _ _).mpr ⟨h2.1, hacc⟩)
        h2.2
    · rw [if_neg hw]
      by_cases hr : (decide (c = ')') && decide (acc ≠ [])) = true
      · rw [if_pos hr]
        rw [List.all_cons]
        refine (Bool.and_eq_true _ _).mpr ⟨?_, cpfAux_all p t [] rfl h2.2⟩
        have hc : c = ')' := by simpa using ((Bool.and_eq_true _ _).mp hr).1
        exact hc ▸ h2.1
      · rw [if_neg hr]
        rw [List.all_append, List.all_cons]
        refine (Bool.and_eq_true _ _).mpr ⟨by simpa using hacc, ?_⟩
        exact (Bool.and_eq_true _ _).mpr ⟨h2.1, cpfAux_all p t [] rfl h2.2⟩

/-- Rule 7 output invariants: assuming lone isolated whitespace not after
`(`, the output keeps those invariants and gains no-whitespace-before-`)`.
The accumulator holds at most one pending space. -/
theorem cpfAux_out :
    ∀ s acc : List Char, noPair dblWs s = true → noPair parenWs s = true →
      (acc = [] ∨ ∃ a, acc = [a] ∧ isSpaceChar a = true ∧
        ∀ d r, s = d :: r → isSpaceChar d = false) →
      noPair dblWs (cpfAux acc s) = true ∧
      noPair parenWs (cpfAux acc s) = true ∧
      noPair wsParen (cpfAux acc s) = true
  | [], acc, _, _, hinv => by
    rcases hinv with rfl | ⟨a, rfl, -, -⟩
    · exact ⟨rfl, rfl, rfl⟩
    · exact ⟨rfl, rfl, rfl⟩
  | c :: t, acc, hB, hD, hinv => by
    have hBt := noPair_tail hB
    have hDt := noPair_tail hD
    rw [cpfAux]
    by_cases hw : isSpaceChar c
    · rw [if_pos hw]
      rcases hinv with rfl | ⟨a, rfl, -, hhead⟩
      · refine cpfAux_out t [c] hBt hDt (Or.inr ⟨c, rfl, hw, ?_⟩)
        intro d r hdr
        subst hdr
        have h2 := noPair_head hB
        simp only [dblWs, hw, Bool.true_and] at h2
        exact h2
      · rw [hhead c t rfl] at hw
        cases hw
    · rw [if_neg hw]
      have hwf : isSpaceChar c = false := by
        rcases h' : isSpaceChar c with - | -
        · rfl
        · exact absurd h' hw
      have ih := cpfAux_out t [] hBt hDt (Or.inl rfl)
      by_cases hrp : (decide (c = ')') && decide (acc ≠ [])) = true
      · rw [if_pos hrp]
        refine ⟨noPair_cons (fun d r _ => by simp [dblWs, isSpaceChar]) ih.1,
          noPair_cons (fun d r _ => by simp [parenWs]) ih.2.1,
          noPair_cons (fun d r _ => by simp [wsParen, isSpaceChar]) ih.2.2⟩
      · rw [if_neg hrp]
        have hhd : ∀ d r, cpfAux [] t = d :: r → c = '(' →
            isSpaceChar d = false := by
          intro d r hdr hc
          subst hc
          rcases t with - | ⟨e, t'⟩
          · cases hdr
          · have he : isSpaceChar e = false := by
              have h2 := noPair_head hD
              simpa [parenWs] using h2
            rw [cpfAux, if_neg (by rw [he]; simp), if_neg (by simp)] at hdr
            simp only [List.reverse_nil, List.nil_append] at hdr
            injection hdr with h3 hdr2
            rw [← h3]
            exact he
        have hm1 : noPair dblWs (c :: cpfAux [] t) = true :=
          noPair_cons (fun d r _ => by simp [dblWs, hwf]) ih.1
        have hm2 : noPair parenWs (c :: cpfAux [] t) = true := by
          refine noPair_cons (fun d r hdr => ?_) ih.2.1
          by_cases hc : c = '('
          · have hd := hhd d r hdr hc
            simp [parenWs, hd]
          · simp [parenWs, hc]
        have hm3 : noPair wsParen (c :: cpfAux [] t) = true :=
          noPair_cons (fun d r _ => by simp [wsParen, hwf]) ih.2.2
        rcases hinv with rfl | ⟨a, rfl, ha, -⟩
        · simpa using ⟨hm1, hm2, hm3⟩
        · have hcne : ¬(c = ')') := by
            intro hc
            exact hrp (by simp [hc])
          have hanl : ¬(a = '(') := by
            rcases ws_char_cases ha with h2 | h2 | h2 | h2 | h2 | h2 <;>
              subst h2 <;> decide
          have hshape : ([a] : List Char).reverse ++ c :: cpfAux [] t
              = a :: c :: cpfAux [] t := by simp
          rw [hshape]
          refine ⟨?_, ?_, ?_⟩
          · rw [noPair]
            refine (Bool.and_eq_true _ _).mpr ⟨by simp [dblWs, hwf], hm1⟩
          · rw [noPair]
            refine (Bool.and_eq_true _ _).mpr ⟨by simp [parenWs, hanl], hm2⟩
          · rw [noPair]
            refine (Bool.and_eq_true _ _).mpr ⟨by simp [wsParen, hcne], hm3⟩

/-- The normalizer's output satisfies all five structural invariants:
whitespace only as lone `' '` characters, no `;`/`:`, and no whitespace
right after `(` or right before `)`. -/
theorem normalizeText_inv (s : List Char) :
    wsOnlySpace (normalizeText s) = true ∧
    noPair dblWs (normalizeText s) = true ∧
    noSemiColon (normalizeText s) = true ∧
    noPair parenWs (normalizeText s) = true ∧
    noPair wsParen (normalizeText s) = true := by
  have hu : normalizeText s = closeParenFix (openParenFix (sepToComma
      (collapseWs (collapseNL (joinSpacedHyphen (joinHyphenNL s)))))) := rfl
  rw [hu]
  have h4 := csAux_out (collapseNL (joinSpacedHyphen (joinHyphenNL s)))
  have hA5 := sep_A h4.1.1
  have hB5 := sep_B _ h4.1.2
  have hC5 := sep_noSemi
    (collapseWs (collapseNL (joinSpacedHyphen (joinHyphenNL s))))
  have hA6 : wsOnlySpace (openParenFix (sepToComma
      (collapseWs (collapseNL (joinSpacedHyphen (joinHyphenNL s)))))) = true :=
    opfAux_all _ _ false hA5
  have hC6 : noSemiColon (openParenFix (sepToComma
      (collapseWs (collapseNL (joinSpacedHyphen (joinHyphenNL s)))))) = true :=
    opfAux_all _ _ false hC5
  have hB6 := (opf_B _ hB5).1
  have hD6 := (opf_D (sepToComma
    (collapseWs (collapseNL (joinSpacedHyphen (joinHyphenNL s)))))).1
  have h7 := cpfAux_out _ [] hB6 hD6 (Or.inl rfl)
  exact ⟨cpfAux_all _ _ [] rfl hA6, h7.1, cpfAux_all _ _ [] rfl hC6,
    h7.2.1, h7.2.2⟩

/-- Claim C7 (amended): normalization is idempotent on every input whose
normalized form is unchanged by the spaced-hyphen rule; the counterexample
shows the hypothesis cannot be dropped, since `re.sub`'s non-overlapping
replacement of that rule can leave a new match for a second pass. -/
theorem C7_conditional_idempotent (s : List Char)
    (h : joinSpacedHyphen (normalizeText s) = normalizeText s) :
    normalizeText (normalizeText s) = normalizeText s := by
  obtain ⟨hA, hB, hC, hD, hE⟩ := normalizeText_inv s
  have hnl : ∀ c ∈ normalizeText s, isNLChar c = false := noNL_of_wsOnly hA
  rw [show normalizeText (normalizeText s) = closeParenFix (openParenFix
    (sepToComma (collapseWs (collapseNL (joinSpacedHyphen
      (joinHyphenNL (normalizeText s))))))) from rfl]
  rw [joinHyphenNL_id hnl, h, collapseNL_id hnl, collapseWs_id hA hB,
    sepToComma_id hC, openParenFix_id hD, closeParenFix_id hE]

/-- Witness for C7: a concrete already-stable input. -/
theorem C7_conditional_idempotent_witness :
    normalizeText (normalizeText "ab cd".data) = normalizeText "ab cd".data :=
  C7_conditional_idempotent "ab cd".data (by decide)

/-! ## Claim C8: separator handling in the normalizer -/

/-- Whitespace is never the pipe character. -/
theorem ws_ne_pipe {c : Char} (h : isSpaceChar c = true) : ¬(c = '|') := by
  rcases ws_char_cases h with h2 | h2 | h2 | h2 | h2 | h2 <;> subst h2 <;>
    decide

/-- A whitespace-only string contains no pipes. -/
theorem ws_count_pipe {w : List Char} (h : w.all isSpaceChar = true) :
    w.count '|' = 0 := by
  refine List.count_eq_zero.mpr fun hin => ?_
  exact ws_ne_pipe (List.all_eq_true.mp h '|' hin) rfl

/-- Rule 1 preserves the number of pipes (it only deletes hyphens and
whitespace). -/
theorem jhnStep_count_pipe :
    ∀ s : List Char,
      (∀ pend, (jhnStep (.scan pend) s).count '|'
        = pend.count '|' + s.count '|') ∧
      (∀ pend ws, ws.all isSpaceChar = true →
        (jhnStep (.hy pend ws) s).count '|' = pend.count '|' + s.count '|') ∧
      (jhnStep .run2 s).count '|' = s.count '|'
  | [] => by
    refine ⟨fun pend => by simp [jhnStep], fun pend ws hws => ?_, by
      simp [jhnStep]⟩
    simp [jhnStep, List.count_cons, ws_count_pipe hws]
  | c :: t => by
    have ih := jhnStep_count_pipe t
    refine ⟨fun pend => ?_, fun pend ws hws => ?_, ?_⟩
    · rw [jhnStep]
      by_cases hw : isWordChar c
      · rw [if_pos hw, ih.1 (c :: pend)]
        simp [List.count_cons]
        omega
      · rw [if_neg hw]
        by_cases hd : (decide (c = '-') && decide (pend ≠ [])) = true
        · rw [if_pos hd, ih.2.1 pend [] rfl]
          have hc : c = '-' := by simpa using ((Bool.and_eq_true _ _).mp hd).1
          subst hc
          simp [List.count_cons]
        · rw [if_neg hd]
          simp [List.count_cons, ih.1 []]
    · rw [jhnStep]
      by_cases hsp : isSpaceChar c
      · rw [if_pos hsp, ih.2.1 pend (c :: ws)
          (by rw [List.all_cons]; exact (Bool.and_eq_true _ _).mpr ⟨hsp, hws⟩)]
        have := ws_ne_pipe hsp
        simp [List.count_cons, this]
      · rw [if_neg hsp]
        by_cases hm : (isWordChar c && ws.any isNLChar) = true
        · rw [if_pos hm]
          simp [List.count_cons, ih.2.2]
        · rw [if_neg hm]
          by_cases hwo : isWordChar c
          · rw [if_pos hwo]
            simp [List.count_cons, ih.1 [c], ws_count_pipe hws]
            omega
          · rw [if_neg hwo]
            simp [List.count_cons, ih.1 [], ws_count_pipe hws]
    · rw [jhnStep]
      by_cases hw : isWordChar c
      · rw [if_pos hw]
        simp [List.count_cons, ih.2.2]
      · rw [if_neg hw]
        simp [List.count_cons, ih.1 []]

/-- Rule 2 preserves the number of pipes. -/
theorem jshStep_count_pipe :
    ∀ s : List Char,
      (∀ pend, (jshStep (.scan pend) s).count '|'
        = pend.count '|' + s.count '|') ∧
      (∀ pend ws, ws.all isSpaceChar = true →
        (jshStep (.ws1 pend ws) s).count '|' = pend.count '|' + s.count '|') ∧
      (∀ pend ws, ws.all isSpaceChar = true →
        (jshStep (.dash pend ws) s).count '|' = pend.count '|' + s.count '|') ∧
      (∀ pend ws1 ws2, ws1.all isSpaceChar = true →
        ws2.all isSpaceChar = true →
        (jshStep (.ws2 pend ws1 ws2) s).count '|'
          = pend.count '|' + s.count '|') ∧
      (jshStep .run2 s).count '|' = s.count '|'
  | [] => by
    refine ⟨fun pend => by simp [jshStep], fun pend ws hws => ?_,
      fun pend ws hws => ?_, fun pend ws1 ws2 h1 h2 => ?_, by simp [jshStep]⟩
    · simp [jshStep, ws_count_pipe hws]
    · simp [jshStep, List.count_cons, ws_count_pipe hws]
    · simp [jshStep, List.count_cons, ws_count_pipe h1, ws_count_pipe h2]
  | c :: t => by
    have ih := jshStep_count_pipe t
    refine ⟨fun pend => ?_, fun pend ws hws => ?_, fun pend ws hws => ?_,
      fun pend ws1 ws2 h1 h2 => ?_, ?_⟩
    · rw [jshStep]
      by_cases hw : isWordChar c
      · rw [if_pos hw, ih.1 (c :: pend)]
        simp [List.count_cons]
        omega
      · rw [if_neg hw]
        by_cases hsp : (isSpaceChar c && decide (pend ≠ [])) = true
        · have hc := ((Bool.and_eq_true _ _).mp hsp).1
          rw [if_pos hsp, ih.2.1 pend [c] (by simp [hc])]
          simp [List.count_cons, ws_ne_pipe hc]
        · rw [if_neg hsp]
          simp [List.count_cons, ih.1 []]
    · rw [jshStep]
      by_cases hsp : isSpaceChar c
      · rw [if_pos hsp, ih.2.1 pend (c :: ws)
          (by rw [List.all_cons]; exact (Bool.and_eq_true _ _).mpr ⟨hsp, hws⟩)]
        simp [List.count_cons, ws_ne_pipe hsp]
      · rw [if_neg hsp]
        by_cases hd : c = '-'
        · rw [if_pos hd, ih.2.2.1 pend ws hws]
          subst hd
          simp [List.count_cons]
        · rw [if_neg hd]
          by_cases hwo : isWordChar c
          · rw [if_pos hwo]
            simp [List.count_cons, ih.1 [c], ws_count_pipe hws]
            omega
          · rw [if_neg hwo]
            simp [List.count_cons, ih.1 [], ws_count_pipe hws]
    · rw [jshStep]
      by_cases hsp : isSpaceChar c
      · rw [if_pos hsp, ih.2.2.2.1 pend ws [c] hws (by simp [hsp])]
        simp [List.count_cons, ws_ne_pipe hsp]
      · rw [if_neg hsp]
        by_cases hwo : isWordChar c
        · rw [if_pos hwo]
          simp [List.count_cons, ih.1 [c], ws_count_pipe hws]
          omega
        · rw [if_neg hwo]
          simp [List.count_cons, ih.1 [], ws_count_pipe hws]
    · rw [jshStep]
      by_cases hsp : isSpaceChar c
      · rw [if_pos hsp, ih.2.2.2.1 pend ws1 (c :: ws2) h1
          (by rw [List.all_cons]; exact (Bool.and_eq_true _ _).mpr ⟨hsp, h2⟩)]
        simp [List.count_cons, ws_ne_pipe hsp]
      · rw [if_neg hsp]
        by_cases hwo : isWordChar c
        · rw [if_pos hwo]
          simp [List.count_cons, ih.2.2.2.2, ws_count_pipe h1]
        · rw [if_neg hwo]
          simp [List.count_cons, ih.1 [], ws_count_pipe h1, ws_count_pipe h2]
    · rw [jshStep]
      by_cases hw : isWordChar c
      · rw [if_pos hw]
        simp [List.count_cons, ih.2.2.2.2]
      · rw [if_neg hw]
        simp [List.count_cons, ih.1 []]

/-- Rule 3 preserves the number of pipes. -/
theorem cnAux_count_pipe : ∀ (f : Bool) (s : List Char),
    (cnAux f s).count '|' = s.count '|'
  | _, [] => rfl
  | f, c :: t => by
    rw [cnAux]
    by_cases hn : isNLChar c
    · have hcp : ¬(c = '|') := ws_ne_pipe (ws_of_nl hn)
      rw [if_pos hn]
      by_cases hf : f = true
      · subst hf
        rw [if_pos rfl, cnAux_count_pipe true t]
        simp [List.count_cons, hcp]
      · have hf2 : f = false := by
          rcases f with - | -
          · rfl
          · exact absurd rfl hf
        subst hf2
        rw [if_neg (by simp)]
        rw [List.count_cons_of_ne (by decide), cnAux_count_pipe true t]
        simp [List.count_cons, hcp]
    · rw [if_neg hn]
      simp [List.count_cons, cnAux_count_pipe false t]

/-- Rule 4 preserves the number of pipes. -/
theorem csAux_count_pipe : ∀ (f : Bool) (s : List Char),
    (csAux f s).count '|' = s.count '|'
  | _, [] => rfl
  | f, c :: t => by
    rw [csAux]
    by_cases hn : isSpaceChar c
    · have hcp : ¬(c = '|') := ws_ne_pipe hn
      rw [if_pos hn]
      by_cases hf : f = true
      · subst hf
        rw [if_pos rfl, csAux_count_pipe true t]
        simp [List.count_cons, hcp]
      · have hf2 : f = false := by
          rcases f with - | -
          · rfl
          · exact absurd rfl hf
        subst hf2
        rw [if_neg (by simp)]
        rw [List.count_cons_of_ne (by decide), csAux_count_pipe true t]
        simp [List.count_cons, hcp]
    · rw [if_neg hn]
      simp [List.count_cons, csAux_count_pipe false t]

/-- Rule 5 preserves the number of pipes. -/
theorem sep_count_pipe : ∀ s : List Char,
    (sepToComma s).count '|' = s.count '|'
  | [] => rfl
  | c :: t => by
    have ih := sep_count_pipe t
    rw [sepToComma] at ih ⊢
    rw [List.map_cons]
    by_cases hc : (c = ';' || c = ':') = true
    · have hsc : sepChar c = ',' := by rw [sepChar, if_pos hc]
      have hcp : ¬(c = '|') := by
        rcases (by simpa using hc : c = ';' ∨ c = ':') with h2 | h2 <;>
          subst h2 <;> decide
      rw [hsc, List.count_cons_of_ne (by decide),
        List.count_cons_of_ne (fun he => hcp he.symm), ih]
    · have hsc : sepChar c = c := by rw [sepChar, if_neg hc]
      rw [hsc]
      simp [List.count_cons, ih]

/-- Rule 6 preserves the number of pipes. -/
theorem opfAux_count_pipe : ∀ (f : Bool) (s : List Char),
    (opfAux f s).count '|' = s.count '|'
  | _, [] => rfl
  | f, c :: t => by
    rw [opfAux]
    by_cases hsk : (f && isSpaceChar c) = true
    · have hws := ((Bool.and_eq_true _ _).mp hsk).2
      rw [if_pos hsk, opfAux_count_pipe true t]
      simp [List.count_cons, ws_ne_pipe hws]
    · rw [if_neg hsk]
      by_cases hp : c = '('
      · subst hp
        rw [if_pos rfl]
        simp [List.count_cons, opfAux_count_pipe true t]
      · rw [if_neg hp]
        simp [List.count_cons, opfAux_count_pipe false t]

/-- Rule 7 preserves the number of pipes. -/
theorem cpfAux_count_pipe : ∀ (s acc : List Char),
    acc.all isSpaceChar = true →
    (cpfAux acc s).count '|' = s.count '|'
  | [], acc, hacc => by
    rw [cpfAux]
    simp [ws_count_pipe hacc]
  | c :: t, acc, hacc => by
    rw [cpfAux]
    by_cases hw : isSpaceChar c
    · rw [if_pos hw, cpfAux_count_pipe t (c :: acc)
        (by rw [List.all_cons]; exact (Bool.and_eq_true _ _).mpr ⟨hw, hacc⟩)]
      simp [List.count_cons, ws_ne_pipe hw]
    · rw [if_neg hw]
      by_cases hr : (decide (c = ')') && decide (acc ≠ [])) = true
      · have hc : c = ')' := by simpa using ((Bool.and_eq_true _ _).mp hr).1
        subst hc
        rw [if_pos hr]
        simp [List.count_cons, cpfAux_count_pipe t [] rfl]
      · rw [if_neg hr]
        simp [List.count_cons, cpfAux_count_pipe t [] rfl,
          ws_count_pipe hacc]

/-- Claim C8 (amended): the normalizer replaces each individual `;` and `:`
by its own `,` and treats `|` as an ordinary character: the normalized text
contains no `;` or `:`, and exactly as many `|` characters as the input
(runs of separators are not collapsed — see the counterexample). -/
theorem C8_separator_normalization (s : List Char) :
    noSemiColon (normalizeText s) = true ∧
    (normalizeText s).count '|' = s.count '|' := by
  refine ⟨(normalizeText_inv s).2.2.1, ?_⟩
  rw [show normalizeText s = closeParenFix (openParenFix (sepToComma
    (collapseWs (collapseNL (joinSpacedHyphen (joinHyphenNL s)))))) from rfl]
  rw [show closeParenFix (openParenFix (sepToComma (collapseWs (collapseNL
      (joinSpacedHyphen (joinHyphenNL s)))))) = cpfAux []
      (openParenFix (sepToComma (collapseWs (collapseNL (joinSpacedHyphen
        (joinHyphenNL s)))))) from rfl]
  rw [cpfAux_count_pipe _ [] rfl]
  rw [show openParenFix (sepToComma (collapseWs (collapseNL (joinSpacedHyphen
      (joinHyphenNL s))))) = opfAux false (sepToComma (collapseWs (collapseNL
      (joinSpacedHyphen (joinHyphenNL s))))) from rfl]
  rw [opfAux_count_pipe, sep_count_pipe]
  rw [show collapseWs (collapseNL (joinSpacedHyphen (joinHyphenNL s)))
    = csAux false (collapseNL (joinSpacedHyphen (joinHyphenNL s))) from rfl]
  rw [csAux_count_pipe]
  rw [show collapseNL (joinSpacedHyphen (joinHyphenNL s))
    = cnAux false (joinSpacedHyphen (joinHyphenNL s)) from rfl]
  rw [cnAux_count_pipe]
  rw [show joinSpacedHyphen (joinHyphenNL s)
    = jshStep (.scan []) (joinHyphenNL s) from rfl]
  rw [(jshStep_count_pipe (joinHyphenNL s)).1 []]
  rw [show joinHyphenNL s = jhnStep (.scan []) s from rfl]
  rw [(jhnStep_count_pipe s).1 []]
  simp

/-! ## Claim C9: subsequence up to the character rewrites -/

/-- Every character may stand for itself. -/
theorem rewOk_refl (a : Char) : rewOk a a := Or.inl rfl

/-- The rewrite relation is transitive: the pair list is closed under
composition. -/
theorem rewOk_trans {a b c : Char} (h1 : rewOk a b) (h2 : rewOk b c) :
    rewOk a c := by
  rcases h1 with rfl | h1p
  · exact h2
  · rcases h2 with rfl | h2p
    · exact Or.inr h1p
    · simp only [rewOk, rewPairs, List.mem_cons, List.not_mem_nil, or_false,
        Prod.mk.injEq] at h1p h2p ⊢
      rcases h1p with h | h | h | h | h | h | h | h | h | h | h | h <;>
        obtain ⟨rfl, rfl⟩ := h <;> simp_all

/-- A space may stand for any whitespace character. -/
theorem rewOk_space {c : Char} (h : isSpaceChar c = true) : rewOk ' ' c := by
  rcases ws_char_cases h with rfl | rfl | rfl | rfl | rfl | rfl <;>
    exact Or.inr (by decide)

/-- A plain subsequence is a subsequence up to rewrites. -/
theorem RelSub.of_sublist {l₁ l₂ : List Char} (h : List.Sublist l₁ l₂) :
    RelSub l₁ l₂ := by
  induction h with
  | slnil => exact RelSub.nil
  | cons b _ ih => exact RelSub.skip b ih
  | cons₂ a _ ih => exact RelSub.keep (rewOk_refl a) ih

/-- A pointwise-rewritten string is a subsequence up to rewrites. -/
theorem RelSub.of_forall2 {l₁ l₂ : List Char}
    (h : List.Forall₂ rewOk l₁ l₂) : RelSub l₁ l₂ := by
  induction h with
  | nil => exact RelSub.nil
  | cons hab _ ih => exact RelSub.keep hab ih

/-- `RelSub` is transitive (stages of the pipeline compose). -/
theorem relSub_trans {l₁ l₂ l₃ : List Char} (h2 : RelSub l₂ l₃) :
    RelSub l₁ l₂ → RelSub l₁ l₃ := by
  induction h2 generalizing l₁ with
  | nil => exact fun h => h
  | skip d _ ih => exact fun h1 => RelSub.skip d (ih h1)
  | keep hxy _ ih =>
    intro h1
    cases h1 with
    | skip _ h1x => exact RelSub.skip _ (ih h1x)
    | keep hax h1x => exact RelSub.keep (rewOk_trans hax hxy) (ih h1x)

/-- Rule 3 only deletes newline characters or replaces them by a space. -/
theorem cnAux_relSub : (s : List Char) → (f : Bool) → RelSub (cnAux f s) s
  | [], _ => RelSub.nil
  | c :: t, f => by
    by_cases hc : isNLChar c = true
    · cases f with
      | true =>
        simp only [cnAux, hc, if_true]
        exact RelSub.skip c (cnAux_relSub t true)
      | false =>
        simp only [cnAux, hc, if_true]
        exact RelSub.keep (rewOk_space (ws_of_nl hc)) (cnAux_relSub t true)
    · rw [Bool.not_eq_true] at hc
      simp only [cnAux, hc, Bool.false_eq_true, if_false]
      exact RelSub.keep (rewOk_refl c) (cnAux_relSub t false)

/-- Rule 4 only deletes whitespace characters or replaces them by a space. -/
theorem csAux_relSub : (s : List Char) → (f : Bool) → RelSub (csAux f s) s
  | [], _ => RelSub.nil
  | c :: t, f => by
    by_cases hc : isSpaceChar c = true
    · cases f with
      | true =>
        simp only [csAux, hc, if_true]
        exact RelSub.skip c (csAux_relSub t true)
      | false =>
        simp only [csAux, hc, if_true]
        exact RelSub.keep (rewOk_space hc) (csAux_relSub t true)
    · rw [Bool.not_eq_true] at hc
      simp only [csAux, hc, Bool.false_eq_true, if_false]
      exact RelSub.keep (rewOk_refl c) (csAux_relSub t false)

/-- The separator map rewrites each character by an allowed pair. -/
theorem rewOk_sep (c : Char) : rewOk (sepChar c) c := by
  unfold sepChar
  split
  case isTrue h =>
    rcases h2 : decide (c = ';') with - | -
    · have h3 : c = ':' := by
        have := h
        simp only [h2, Bool.false_or, decide_eq_true_eq] at this
        exact this
      subst h3
      exact Or.inr (by decide)
    · have h3 : c = ';' := of_decide_eq_true h2
      subst h3
      exact Or.inr (by decide)
  case isFalse h => exact rewOk_refl c

/-- Rule 5 is a pointwise allowed rewrite. -/
theorem sepToComma_forall2 (s : List Char) :
    List.Forall₂ rewOk (sepToComma s) s := by
  induction s with
  | nil => exact List.Forall₂.nil
  | cons c t ih => exact List.Forall₂.cons (rewOk_sep c) ih

/-- Rule 6 only deletes characters. -/
theorem opfAux_sublist : (s : List Char) → (f : Bool) →
    List.Sublist (opfAux f s) s
  | [], _ => by simp [opfAux]
  | c :: t, f => by
    rw [opfAux]
    split
    · exact (opfAux_sublist t true).trans (List.sublist_cons_self c t)
    · split
      case isTrue h =>
        subst h
        exact List.Sublist.cons₂ '(' (opfAux_sublist t true)
      case isFalse h => exact List.Sublist.cons₂ c (opfAux_sublist t false)

/-- Rule 7 only deletes characters (relative to the buffered whitespace
followed by the rest of the input). -/
theorem cpfAux_sublist : (s : List Char) → (acc : List Char) →
    List.Sublist (cpfAux acc s) (acc.reverse ++ s)
  | [], acc => by simp [cpfAux]
  | c :: t, acc => by
    rw [cpfAux]
    split
    · have h1 := cpfAux_sublist t (c :: acc)
      simpa using h1
    · split
      case isTrue h =>
        have h1 : List.Sublist (cpfAux [] t) t := by
          simpa using cpfAux_sublist t []
        simp only [Bool.and_eq_true, decide_eq_true_eq] at h
        obtain ⟨hc, -⟩ := h
        subst hc
        exact (List.Sublist.cons₂ ')' h1).trans
          (List.sublist_append_right acc.reverse (')' :: t))
      case isFalse h =>
        have h1 : List.Sublist (cpfAux [] t) t := by
          simpa using cpfAux_sublist t []
        exact List.Sublist.append_left (List.Sublist.cons₂ c h1) acc.reverse

/-- Rule 1 only deletes characters: from any state, the scanner's output is a
subsequence of the buffered characters followed by the rest of the input. -/
theorem jhnStep_sublist : (s : List Char) → (st : JhnState) →
    List.Sublist (jhnStep st s) (jhnRecon st ++ s)
  | [], st => by cases st <;> simp [jhnStep, jhnRecon]
  | c :: t, .scan pend => by
    simp only [jhnStep]
    split
    · have h1 := jhnStep_sublist t (.scan (c :: pend))
      simp only [jhnRecon, List.reverse_cons] at h1 ⊢
      simpa [List.append_assoc] using h1
    · split
      case isTrue h =>
        simp only [Bool.and_eq_true, decide_eq_true_eq] at h
        obtain ⟨hc, -⟩ := h
        subst hc
        have h1 := jhnStep_sublist t (.hy pend [])
        simp only [jhnRecon, List.reverse_nil] at h1 ⊢
        simpa [List.append_assoc] using h1
      case isFalse h =>
        have h1 : List.Sublist (jhnStep (.scan []) t) t := by
          simpa [jhnRecon] using jhnStep_sublist t (.scan [])
        simp only [jhnRecon]
        exact List.Sublist.append_left (List.Sublist.cons₂ c h1) pend.reverse
  | c :: t, .hy pend ws => by
    simp only [jhnStep]
    split
    · have h1 := jhnStep_sublist t (.hy pend (c :: ws))
      simp only [jhnRecon, List.reverse_cons] at h1 ⊢
      simpa [List.append_assoc] using h1
    · split
      · have h1 : List.Sublist (jhnStep .run2 t) t := by
          simpa [jhnRecon] using jhnStep_sublist t .run2
        have h2 : List.Sublist (c :: jhnStep .run2 t)
            ('-' :: (ws.reverse ++ c :: t)) :=
          List.Sublist.cons '-' ((List.Sublist.cons₂ c h1).trans
            (List.sublist_append_right ws.reverse (c :: t)))
        simp only [jhnRecon, List.append_assoc, List.cons_append]
        exact List.Sublist.append_left h2 pend.reverse
      · split
        · have h1 : List.Sublist (jhnStep (.scan [c]) t) (c :: t) := by
            simpa [jhnRecon] using jhnStep_sublist t (.scan [c])
          have h2 := List.Sublist.append_left h1
            (pend.reverse ++ '-' :: ws.reverse)
          simp only [jhnRecon] at h2 ⊢
          simpa [List.append_assoc] using h2
        · have h1 : List.Sublist (jhnStep (.scan []) t) t := by
            simpa [jhnRecon] using jhnStep_sublist t (.scan [])
          have h2 := List.Sublist.append_left (List.Sublist.cons₂ c h1)
            (pend.reverse ++ '-' :: ws.reverse)
          simp only [jhnRecon] at h2 ⊢
          simpa [List.append_assoc] using h2
  | c :: t, .run2 => by
    simp only [jhnStep]
    split
    · have h1 : List.Sublist (jhnStep .run2 t) t := by
        simpa [jhnRecon] using jhnStep_sublist t .run2
      simp only [jhnRecon, List.nil_append]
      exact List.Sublist.cons₂ c h1
    · have h1 : List.Sublist (jhnStep (.scan []) t) t := by
        simpa [jhnRecon] using jhnStep_sublist t (.scan [])
      simp only [jhnRecon, List.nil_append]
      exact List.Sublist.cons₂ c h1

/-- Rule 2 only deletes characters: from any state, the scanner's output is a
subsequence of the buffered characters followed by the rest of the input. -/
theorem jshStep_sublist : (s : List Char) → (st : JshState) →
    List.Sublist (jshStep st s) (jshRecon st ++ s)
  | [], st => by cases st <;> simp [jshStep, jshRecon]
  | c :: t, .scan pend => by
    simp only [jshStep]
    split
    · have h1 := jshStep_sublist t (.scan (c :: pend))
      simp only [jshRecon, List.reverse_cons] at h1 ⊢
      simpa [List.append_assoc] using h1
    · split
      case isTrue h =>
        have h1 := jshStep_sublist t (.ws1 pend [c])
        simp only [jshRecon, List.reverse_cons, List.reverse_nil] at h1 ⊢
        simpa [List.append_assoc] using h1
      case isFalse h =>
        have h1 : List.Sublist (jshStep (.scan []) t) t := by
          simpa [jshRecon] using jshStep_sublist t (.scan [])
        simp only [jshRecon]
        exact List.Sublist.append_left (List.Sublist.cons₂ c h1) pend.reverse
  | c :: t, .ws1 pend ws => by
    simp only [jshStep]
    split
    · have h1 := jshStep_sublist t (.ws1 pend (c :: ws))
      simp only [jshRecon, List.reverse_cons] at h1 ⊢
      simpa [List.append_assoc] using h1
    · split
      case isTrue h =>
        subst h
        have h1 := jshStep_sublist t (.dash pend ws)
        simp only [jshRecon] at h1 ⊢
        simpa [List.append_assoc] using h1
      case isFalse h =>
        split
        · have h1 : List.Sublist (jshStep (.scan [c]) t) (c :: t) := by
            simpa [jshRecon] using jshStep_sublist t (.scan [c])
          have h2 := List.Sublist.append_left h1 (pend.reverse ++ ws.reverse)
          simp only [jshRecon] at h2 ⊢
          simpa [List.append_assoc] using h2
        · have h1 : List.Sublist (jshStep (.scan []) t) t := by
            simpa [jshRecon] using jshStep_sublist t (.scan [])
          have h2 := List.Sublist.append_left (List.Sublist.cons₂ c h1)
            (pend.reverse ++ ws.reverse)
          simp only [jshRecon] at h2 ⊢
          simpa [List.append_assoc] using h2
  | c :: t, .dash pend ws => by
    simp only [jshStep]
    split
    · have h1 := jshStep_sublist t (.ws2 pend ws [c])
      simp only [jshRecon, List.reverse_cons, List.reverse_nil] at h1 ⊢
      simpa [List.append_assoc] using h1
    · split
      · have h1 : List.Sublist (jshStep (.scan [c]) t) (c :: t) := by
          simpa [jshRecon] using jshStep_sublist t (.scan [c])
        have h2 := List.Sublist.append_left (List.Sublist.cons₂ '-' h1)
          (pend.reverse ++ ws.reverse)
        simp only [jshRecon] at h2 ⊢
        simpa [List.append_assoc] using h2
      · have h1 : List.Sublist (jshStep (.scan []) t) t := by
          simpa [jshRecon] using jshStep_sublist t (.scan [])
        have h2 := List.Sublist.append_left
          (List.Sublist.cons₂ '-' (List.Sublist.cons₂ c h1))
          (pend.reverse ++ ws.reverse)
        simp only [jshRecon] at h2 ⊢
        simpa [List.append_assoc] using h2
  | c :: t, .ws2 pend ws1 ws2 => by
    simp only [jshStep]
    split
    · have h1 := jshStep_sublist t (.ws2 pend ws1 (c :: ws2))
      simp only [jshRecon, List.reverse_cons] at h1 ⊢
      simpa [List.append_assoc] using h1
    · split
      · have h1 : List.Sublist (jshStep .run2 t) t := by
          simpa [jshRecon] using jshStep_sublist t .run2
        have h2 : List.Sublist (c :: jshStep .run2 t)
            (ws2.reverse ++ c :: t) :=
          (List.Sublist.cons₂ c h1).trans
            (List.sublist_append_right ws2.reverse (c :: t))
        have h3 : List.Sublist ('-' :: c :: jshStep .run2 t)
            (ws1.reverse ++ '-' :: (ws2.reverse ++ c :: t)) :=
          (List.Sublist.cons₂ '-' h2).trans
            (List.sublist_append_right ws1.reverse _)
        have h4 := List.Sublist.append_left h3 pend.reverse
        simp only [jshRecon] at h4 ⊢
        simpa [List.append_assoc] using h4
      · have h1 : List.Sublist (jshStep (.scan []) t) t := by
          simpa [jshRecon] using jshStep_sublist t (.scan [])
        have h2 := List.Sublist.append_left (List.Sublist.cons₂ c h1)
          (pend.reverse ++ ws1.reverse ++ '-' :: ws2.reverse)
        simp only [jshRecon] at h2 ⊢
        simpa [List.append_assoc] using h2
  | c :: t, .run2 => by
    simp only [jshStep]
    split
    · have h1 : List.Sublist (jshStep .run2 t) t := by
        simpa [jshRecon] using jshStep_sublist t .run2
      simp only [jshRecon, List.nil_append]
      exact List.Sublist.cons₂ c h1
    · have h1 : List.Sublist (jshStep (.scan []) t) t := by
        simpa [jshRecon] using jshStep_sublist t (.scan [])
      simp only [jshRecon, List.nil_append]
      exact List.Sublist.cons₂ c h1

/-- The normalized text is a subsequence of the input up to the allowed
character rewrites: rules 1, 2, 6 and 7 only delete characters, rules 3 and 4
delete whitespace or rewrite it to a space, and rule 5 rewrites separators
pointwise. -/
theorem normalizeText_relSub (s : List Char) : RelSub (normalizeText s) s := by
  have h1 : List.Sublist (joinHyphenNL s) s := by
    simpa [jhnRecon] using jhnStep_sublist s (.scan [])
  have h2 : List.Sublist (joinSpacedHyphen (joinHyphenNL s))
      (joinHyphenNL s) := by
    simpa [jshRecon] using jshStep_sublist (joinHyphenNL s) (.scan [])
  have h3 := cnAux_relSub (joinSpacedHyphen (joinHyphenNL s)) false
  have h4 := csAux_relSub (collapseNL (joinSpacedHyphen (joinHyphenNL s))) false
  have h5 := RelSub.of_forall2 (sepToComma_forall2
    (collapseWs (collapseNL (joinSpacedHyphen (joinHyphenNL s)))))
  have h6 : List.Sublist (openParenFix (sepToComma (collapseWs (collapseNL
      (joinSpacedHyphen (joinHyphenNL s)))))) (sepToComma (collapseWs
      (collapseNL (joinSpacedHyphen (joinHyphenNL s))))) :=
    opfAux_sublist _ false
  have h7 : List.Sublist (closeParenFix (openParenFix (sepToComma (collapseWs
      (collapseNL (joinSpacedHyphen (joinHyphenNL s)))))))
      (openParenFix (sepToComma (collapseWs (collapseNL (joinSpacedHyphen
        (joinHyphenNL s)))))) := by
    simpa using cpfAux_sublist (openParenFix (sepToComma (collapseWs
      (collapseNL (joinSpacedHyphen (joinHyphenNL s)))))) []
  exact relSub_trans (RelSub.of_sublist h1) (relSub_trans
    (RelSub.of_sublist h2) (relSub_trans h3 (relSub_trans h4 (relSub_trans h5
      (relSub_trans (RelSub.of_sublist h6) (RelSub.of_sublist h7))))))

/-- Dropping a run at each end yields a subsequence. -/
theorem dropEnds_sublist (p q : Char → Bool) (s : List Char) :
    List.Sublist (((s.dropWhile p).reverse.dropWhile q).reverse) s := by
  have h1 : List.Sublist (s.dropWhile p) s := List.dropWhile_sublist p
  have h2 : List.Sublist ((s.dropWhile p).reverse.dropWhile q)
      (s.dropWhile p).reverse := List.dropWhile_sublist q
  have h3 := List.Sublist.reverse h2
  rw [List.reverse_reverse] at h3
  exact h3.trans h1

/-- Python `strip()` yields a subsequence. -/
theorem stripWs_sublist (s : List Char) : List.Sublist (stripWs s) s :=
  dropEnds_sublist isSpaceChar isSpaceChar s

/-- The end-strip of the final cleanup yields a subsequence. -/
theorem stripEnds_sublist (s : List Char) : List.Sublist (stripEnds s) s :=
  dropEnds_sublist _ _ s

/-- Every piece of the comma split is a subsequence of the split string. -/
theorem splitOnComma_sublist : (s : List Char) → ∀ p ∈ splitOnComma s,
    List.Sublist p s
  | [] => by
    intro p hp
    simp only [splitOnComma, List.mem_singleton] at hp
    subst hp
    exact List.nil_sublist []
  | c :: t => by
    intro p hp
    rw [splitOnComma] at hp
    split at hp
    case isTrue h =>
      rcases List.mem_cons.mp hp with rfl | h2
      · exact List.nil_sublist _
      · exact (splitOnComma_sublist t p h2).trans (List.sublist_cons_self c t)
    case isFalse h =>
      split at hp
      next q r heq =>
        rcases List.mem_cons.mp hp with rfl | h2
        · have hq : q ∈ splitOnComma t := by
            rw [heq]; exact List.mem_cons_self q r
          exact List.Sublist.cons₂ c (splitOnComma_sublist t q hq)
        · have hr : p ∈ splitOnComma t := by
            rw [heq]; exact List.mem_cons_of_mem q h2
          exact List.Sublist.cons c (splitOnComma_sublist t p hr)
      next heq =>
        simp only [List.mem_singleton] at hp
        subst hp
        exact List.Sublist.cons₂ c (List.nil_sublist t)

/-- A three-character abbreviation protection is a pointwise allowed
rewrite (each matched period becomes the placeholder `@`). -/
theorem prot3_forall2 (a b : Char) : (s : List Char) →
    List.Forall₂ rewOk (prot3 a b s) s
  | [] => by simp [prot3]
  | [x] => by
    simp only [prot3]
    exact List.Forall₂.cons (rewOk_refl x) List.Forall₂.nil
  | [x, y] => by
    simp only [prot3]
    exact List.Forall₂.cons (rewOk_refl x)
      (List.Forall₂.cons (rewOk_refl y) List.Forall₂.nil)
  | x :: y :: z :: t => by
    rw [prot3]
    split
    case isTrue h =>
      simp only [Bool.and_eq_true, decide_eq_true_eq] at h
      obtain ⟨-, hz⟩ := h
      subst hz
      exact List.Forall₂.cons (rewOk_refl x) (List.Forall₂.cons (rewOk_refl y)
        (List.Forall₂.cons (Or.inr (by decide)) (prot3_forall2 a b t)))
    case isFalse h =>
      exact List.Forall₂.cons (rewOk_refl x) (prot3_forall2 a b (y :: z :: t))

/-- A four-character abbreviation protection is a pointwise allowed
rewrite. -/
theorem prot4_forall2 (a b c : Char) : (s : List Char) →
    List.Forall₂ rewOk (prot4 a b c s) s
  | [] => by simp [prot4]
  | [x] => by
    simp only [prot4]
    exact List.Forall₂.cons (rewOk_refl x) List.Forall₂.nil
  | [x, y] => by
    simp only [prot4]
    exact List.Forall₂.cons (rewOk_refl x)
      (List.Forall₂.cons (rewOk_refl y) List.Forall₂.nil)
  | [x, y, z] => by
    simp only [prot4]
    exact List.Forall₂.cons (rewOk_refl x) (List.Forall₂.cons (rewOk_refl y)
      (List.Forall₂.cons (rewOk_refl z) List.Forall₂.nil))
  | x :: y :: z :: u :: t => by
    rw [prot4]
    split
    case isTrue h =>
      simp only [Bool.and_eq_true, decide_eq_true_eq] at h
      obtain ⟨-, hu⟩ := h
      subst hu
      exact List.Forall₂.cons (rewOk_refl x) (List.Forall₂.cons (rewOk_refl y)
        (List.Forall₂.cons (rewOk_refl z) (List.Forall₂.cons
          (Or.inr (by decide)) (prot4_forall2 a b c t))))
    case isFalse h =>
      exact List.Forall₂.cons (rewOk_refl x)
        (prot4_forall2 a b c (y :: z :: u :: t))

/-- The six-character abbreviation protection is a pointwise allowed
rewrite. -/
theorem prot6_forall2 (a b c d e : Char) : (s : List Char) →
    List.Forall₂ rewOk (prot6 a b c d e s) s
  | [] => by simp [prot6]
  | [x] => by
    simp only [prot6]
    exact List.Forall₂.cons (rewOk_refl x) List.Forall₂.nil
  | [x, y] => by
    simp only [prot6]
    exact List.Forall₂.cons (rewOk_refl x)
      (List.Forall₂.cons (rewOk_refl y) List.Forall₂.nil)
  | [x, y, z] => by
    simp only [prot6]
    exact List.Forall₂.cons (rewOk_refl x) (List.Forall₂.cons (rewOk_refl y)
      (List.Forall₂.cons (rewOk_refl z) List.Forall₂.nil))
  | [x, y, z, u] => by
    simp only [prot6]
    exact List.Forall₂.cons (rewOk_refl x) (List.Forall₂.cons (rewOk_refl y)
      (List.Forall₂.cons (rewOk_refl z)
        (List.Forall₂.cons (rewOk_refl u) List.Forall₂.nil)))
  | [x, y, z, u, v] => by
    simp only [prot6]
    exact List.Forall₂.cons (rewOk_refl x) (List.Forall₂.cons (rewOk_refl y)
      (List.Forall₂.cons (rewOk_refl z) (List.Forall₂.cons (rewOk_refl u)
        (List.Forall₂.cons (rewOk_refl v) List.Forall₂.nil))))
  | x :: y :: z :: u :: v :: w :: t => by
    rw [prot6]
    split
    case isTrue h =>
      simp only [Bool.and_eq_true, decide_eq_true_eq] at h
      obtain ⟨-, hw⟩ := h
      subst hw
      exact List.Forall₂.cons (rewOk_refl x) (List.Forall₂.cons (rewOk_refl y)
        (List.Forall₂.cons (rewOk_refl z) (List.Forall₂.cons (rewOk_refl u)
          (List.Forall₂.cons (rewOk_refl v) (List.Forall₂.cons
            (Or.inr (by decide)) (prot6_forall2 a b c d e t))))))
    case isFalse h =>
      exact List.Forall₂.cons (rewOk_refl x)
        (prot6_forall2 a b c d e (y :: z :: u :: v :: w :: t))

/-- Abbreviation protection rewrites characters only by allowed pairs. -/
theorem protectAbbrev_relSub (s : List Char) : RelSub (protectAbbrev s) s := by
  unfold protectAbbrev
  exact relSub_trans (RelSub.of_forall2 (prot4_forall2 'v' 'i' 't' s))
    (relSub_trans (RelSub.of_forall2 (prot4_forall2 'v' 'a' 'r' _))
      (relSub_trans (RelSub.of_forall2 (prot4_forall2 's' 'p' 'p' _))
        (relSub_trans (RelSub.of_forall2 (prot3_forall2 's' 'p' _))
          (relSub_trans (RelSub.of_forall2 (prot6_forall2 's' 'u' 'b' 's' 'p' _))
            (relSub_trans (RelSub.of_forall2 (prot4_forall2 'v' 'o' 'l' _))
              (relSub_trans (RelSub.of_forall2 (prot3_forall2 'n' 'o' _))
                (relSub_trans (RelSub.of_forall2 (prot3_forall2 'd' 'r' _))
                  (RelSub.of_forall2 (prot3_forall2 's' 't' _)))))))))

/-- Restoring the placeholder is a pointwise allowed rewrite. -/
theorem rewOk_restore (c : Char) : rewOk (if c = '@' then '.' else c) c := by
  split
  case isTrue h => subst h; exact Or.inr (by decide)
  case isFalse h => exact rewOk_refl c

/-- `restoreAt` rewrites characters only by the pair `('.', '@')`. -/
theorem restoreAt_forall2 (s : List Char) :
    List.Forall₂ rewOk (restoreAt s) s := by
  induction s with
  | nil => exact List.Forall₂.nil
  | cons c t ih => exact List.Forall₂.cons (rewOk_restore c) ih

/-- Every part emitted by the period-split scanner is a subsequence of the
buffered characters followed by the rest of the input. -/
theorem psAux_sublist : (s : List Char) → (st : PsState) → ∀ p ∈ psAux st s,
    List.Sublist p (psRecon st ++ s)
  | [], .acc cur => by
    intro p hp
    simp only [psAux, List.mem_singleton] at hp
    subst hp
    simp [psRecon]
  | [], .dot cur ws => by
    intro p hp
    simp only [psAux, List.mem_singleton] at hp
    subst hp
    simp [psRecon]
  | c :: t, .acc cur => by
    intro p hp
    rw [psAux] at hp
    split at hp
    case isTrue h =>
      subst h
      have h1 := psAux_sublist t (.dot cur []) p hp
      simp only [psRecon, List.reverse_nil] at h1 ⊢
      simpa [List.append_assoc] using h1
    case isFalse h =>
      have h1 := psAux_sublist t (.acc (c :: cur)) p hp
      simp only [psRecon, List.reverse_cons] at h1 ⊢
      simpa [List.append_assoc] using h1
  | c :: t, .dot cur ws => by
    intro p hp
    rw [psAux] at hp
    split at hp
    · have h1 := psAux_sublist t (.dot cur (c :: ws)) p hp
      simp only [psRecon, List.reverse_cons] at h1 ⊢
      simpa [List.append_assoc] using h1
    · split at hp
      case isTrue h =>
        rcases List.mem_cons.mp hp with rfl | h2
        · simp only [psRecon]
          simp [List.append_assoc]
        · have h1 := psAux_sublist t (.acc [c]) p h2
          simp only [psRecon, List.reverse_cons, List.reverse_nil] at h1
          have h1x : List.Sublist p (c :: t) := by simpa using h1
          have h3 := h1x.trans (List.sublist_append_right
            (cur.reverse ++ '.' :: ws.reverse) (c :: t))
          simp only [psRecon]
          simpa [List.append_assoc] using h3
      case isFalse h =>
        split at hp
        case isTrue h4 =>
          subst h4
          have h1 := psAux_sublist t (.dot (ws ++ '.' :: cur) []) p hp
          simp only [psRecon, List.reverse_append, List.reverse_cons,
            List.reverse_nil] at h1 ⊢
          simpa [List.append_assoc] using h1
        case isFalse h4 =>
          have h1 := psAux_sublist t (.acc (c :: ws ++ '.' :: cur)) p hp
          simp only [psRecon, List.reverse_append, List.reverse_cons] at h1 ⊢
          simpa [List.append_assoc] using h1

/-- Every piece cut from a part at split indices is a subsequence of the
part. -/
theorem cutParts_sublist : (idxs : List Nat) → (part : List Char) →
    (start : Nat) → ∀ p ∈ cutParts part start idxs, List.Sublist p part
  | [], part, start => by
    intro p hp
    rw [cutParts] at hp
    split at hp
    · simp only [List.mem_singleton] at hp
      subst hp
      exact (stripWs_sublist _).trans (List.drop_sublist start part)
    · simp at hp
  | i :: rest, part, start => by
    intro p hp
    rw [cutParts] at hp
    rcases List.mem_append.mp hp with h1 | h2
    · split at h1
      · simp only [List.mem_singleton] at h1
        subst h1
        exact (stripWs_sublist _).trans ((List.drop_sublist start _).trans
          (List.take_sublist i part))
      · simp at h1
    · exact cutParts_sublist rest part i p h2

/-- Every piece of the camel-seam split is a subsequence of the part. -/
theorem camelSplit_sublist {part : List Char} :
    ∀ p ∈ camelSplit part, List.Sublist p part := by
  intro p hp
  unfold camelSplit at hp
  split at hp
  next heq =>
    simp only [List.mem_singleton] at hp
    subst hp
    exact List.Sublist.refl p
  next i rest heq => exact cutParts_sublist _ part 0 p hp

/-- The `l`-confusion fix is a pointwise allowed rewrite (each matched `l`
becomes `-`). -/
theorem ocrFixL_forall2 : (s : List Char) →
    List.Forall₂ rewOk (ocrFixL s) s
  | [] => by simp [ocrFixL]
  | [c] => by
    simp only [ocrFixL]
    exact List.Forall₂.cons (rewOk_refl c) List.Forall₂.nil
  | [c, d] => by
    simp only [ocrFixL]
    exact List.Forall₂.cons (rewOk_refl c)
      (List.Forall₂.cons (rewOk_refl d) List.Forall₂.nil)
  | a :: b :: d :: t => by
    rw [ocrFixL]
    split
    case isTrue h =>
      simp only [Bool.and_eq_true, decide_eq_true_eq] at h
      obtain ⟨⟨-, hb⟩, -⟩ := h
      subst hb
      exact List.Forall₂.cons (rewOk_refl a) (List.Forall₂.cons
        (Or.inr (by decide)) (List.Forall₂.cons (rewOk_refl d)
          (ocrFixL_forall2 t)))
    case isFalse h =>
      exact List.Forall₂.cons (rewOk_refl a) (ocrFixL_forall2 (b :: d :: t))

/-- The `O`-confusion fix is a pointwise allowed rewrite (each matched `O`
becomes `-`). -/
theorem ocrFixO_forall2 : (s : List Char) →
    List.Forall₂ rewOk (ocrFixO s) s
  | [] => by simp [ocrFixO]
  | [c] => by
    simp only [ocrFixO]
    exact List.Forall₂.cons (rewOk_refl c) List.Forall₂.nil
  | [c, d] => by
    simp only [ocrFixO]
    exact List.Forall₂.cons (rewOk_refl c)
      (List.Forall₂.cons (rewOk_refl d) List.Forall₂.nil)
  | a :: b :: d :: t => by
    rw [ocrFixO]
    split
    case isTrue h =>
      simp only [Bool.and_eq_true, decide_eq_true_eq] at h
      obtain ⟨⟨-, hb⟩, -⟩ := h
      subst hb
      exact List.Forall₂.cons (rewOk_refl a) (List.Forall₂.cons
        (Or.inr (by decide)) (List.Forall₂.cons (rewOk_refl d)
          (ocrFixO_forall2 t)))
    case isFalse h =>
      exact List.Forall₂.cons (rewOk_refl a) (ocrFixO_forall2 (b :: d :: t))

/-- Every raw candidate item produced by segmentation is a subsequence of
the normalized span up to the allowed rewrites. -/
theorem segmentSpan_relSub {norm item : List Char}
    (h : item ∈ segmentSpan norm) : RelSub item norm := by
  unfold segmentSpan at h
  simp only [List.mem_flatMap, List.mem_filter, List.mem_map] at h
  obtain ⟨it, ⟨⟨raw, hraw, rfl⟩, -⟩, part, hpart, hitem⟩ := h
  have c1 : List.Sublist item (restoreAt part) := camelSplit_sublist item hitem
  have c2 : RelSub (restoreAt part) part :=
    RelSub.of_forall2 (restoreAt_forall2 part)
  have c3 : List.Sublist part (protectAbbrev (stripWs raw)) := by
    have h3 := psAux_sublist (protectAbbrev (stripWs raw)) (.acc []) part hpart
    simpa [psRecon] using h3
  have c4 : RelSub (protectAbbrev (stripWs raw)) (stripWs raw) :=
    protectAbbrev_relSub _
  have c5 : List.Sublist (stripWs raw) raw := stripWs_sublist raw
  have c6 : List.Sublist raw norm := splitOnComma_sublist norm raw hraw
  exact relSub_trans (RelSub.of_sublist c6) (relSub_trans
    (RelSub.of_sublist c5) (relSub_trans c4 (relSub_trans
      (RelSub.of_sublist c3) (relSub_trans c2 (RelSub.of_sublist c1)))))

/-- The final cleanup of one candidate only deletes characters or rewrites
them by allowed pairs. -/
theorem cleanToken_relSub {s tok : List Char} (h : cleanToken s = some tok) :
    RelSub tok s := by
  simp only [cleanToken] at h
  split at h
  case isFalse => cases h
  case isTrue hd =>
    cases h
    have c1 := RelSub.of_forall2 (ocrFixO_forall2
      (ocrFixL (collapseWs (stripEnds (stripWs s)))))
    have c2 := RelSub.of_forall2 (ocrFixL_forall2
      (collapseWs (stripEnds (stripWs s))))
    have c3 := csAux_relSub (stripEnds (stripWs s)) false
    have c4 := RelSub.of_sublist (stripEnds_sublist (stripWs s))
    have c5 := RelSub.of_sublist (stripWs_sublist s)
    exact relSub_trans c5 (relSub_trans c4 (relSub_trans c3
      (relSub_trans c2 c1)))

/-- Claim C9 (amended): every token of `parse_ingredients_from_ocr`'s final
list is, in order, drawn from the extracted span's characters up to the
pipeline's character rewrites — a token `-` may stand for an original `l` or
`O`, a token `.` for an original `@`, a token `,` for an original `;` or `:`,
and a token space for any original whitespace character (`rewPairs`); with
those identifications (`RelSub`) every output token is a subsequence of the
span.  The plain character-subsequence claim fails (see the
counterexample). -/
theorem C9_subsequence_up_to_rewrites (span tok : List Char)
    (h : tok ∈ parse_ingredients_from_span span) : RelSub tok span := by
  unfold parse_ingredients_from_span finalClean at h
  obtain ⟨item, hitem, hct⟩ := List.mem_filterMap.mp h
  exact relSub_trans (normalizeText_relSub span)
    (relSub_trans (segmentSpan_relSub hitem) (cleanToken_relSub hct))

/-- Witness for C9 at a concrete input: the span `Cl5x` yields the single
token `C-5x`, which is a subsequence of the span up to the rewrite
`('-', 'l')`. -/
theorem C9_subsequence_up_to_rewrites_witness :
    "C-5x".data ∈ parse_ingredients_from_span "Cl5x".data ∧
      RelSub "C-5x".data "Cl5x".data :=
  ⟨by decide, C9_subsequence_up_to_rewrites "Cl5x".data "C-5x".data
    (by decide)⟩
